import Mathlib

/-!
Octonaut: the intrusive list and the chained hash table.

A shallow embedding of `octonaut/hash.h` and `octonaut/buffer.c` over an explicit
node memory.

* Addresses are natural numbers.  The node memory `Mem` gives the `octo_list`
  (the pair of links) stored at every address.
* `struct octo_hash_entry` has its `hash_list` member first, so an entry and its
  list node share one address; `Heap` adds the `keylen` and `key` members of the
  entry at that address.  A key pointer is embedded as the list of the bytes it
  addresses, so a key is the pair of that list and its `keylen`.
* `list.h` is not among the sources; its operations are modelled from the
  specification and from the unit tests in `tests/list.c`.
* Loops over a chain take a fuel argument; the outer `Option` is `none` only
  when the fuel runs out or a C `assert` fails.
* `buffer.h` is not among the sources either; a segment is identified with the
  address of its list node, a buffer with the address of its list head, and
  addresses returned by `malloc` are arguments of the allocating functions.
-/

namespace Octonaut

/-! ## Node memory -/

/-- The links of an intrusive list node, `struct octo_list`. -/
structure octo_list where
  next : Nat
  prev : Nat
deriving DecidableEq, Repr

/-- Node memory: the list node stored at each address. -/
abbrev Mem := Nat → octo_list

/-- Store `v` at address `a`. -/
def Mem.set (m : Mem) (a : Nat) (v : octo_list) : Mem :=
  fun b => if b = a then v else m b

/-! ## list.h -/

/-- Modelled from the spec: `octo_list_init` of list.h, which is not among the
sources: "sets `n.next = n.prev = n`". -/
def octo_list_init (m : Mem) (n : Nat) : Mem :=
  m.set n ⟨n, n⟩

/-- Modelled from the spec: `octo_list_empty` of list.h, which is not among the
sources: "true iff `h.next == h`". -/
def octo_list_empty (m : Mem) (h : Nat) : Bool :=
  (m h).next == h

/-- Modelled from the spec: `octo_list_add` of list.h, which is not among the
sources: addAfter, "inserts `x` immediately after `h`". -/
def octo_list_add (m : Mem) (h x : Nat) : Mem :=
  let nxt := (m h).next
  let m1 := m.set x ⟨nxt, h⟩
  let m2 := m1.set nxt { m1 nxt with prev := x }
  m2.set h { m2 h with next := x }

/-- Modelled from the spec: `octo_list_prepend` of list.h, which is not among the
sources: the spec names addAfter both "add" and "prepend". -/
def octo_list_prepend (m : Mem) (h x : Nat) : Mem :=
  octo_list_add m h x

/-- Modelled from the spec: `octo_list_append` of list.h, which is not among the
sources: addBefore, "inserts `x` immediately before `h`". -/
def octo_list_append (m : Mem) (h x : Nat) : Mem :=
  let prv := (m h).prev
  let m1 := m.set x ⟨h, prv⟩
  let m2 := m1.set prv { m1 prv with next := x }
  m2.set h { m2 h with prev := x }

/-- Modelled from the spec: `octo_list_remove` of list.h, which is not among the
sources: "unlinks `x` and re-initializes it to the detached state". -/
def octo_list_remove (m : Mem) (x : Nat) : Mem :=
  let p := (m x).prev
  let n := (m x).next
  let m1 := m.set p { m p with next := n }
  let m2 := m1.set n { m1 n with prev := p }
  octo_list_init m2 x

/-- Modelled from the spec: `octo_list_head` of list.h: "return `h.next`". -/
def octo_list_head (m : Mem) (h : Nat) : Nat := (m h).next

/-- Modelled from the spec: `octo_list_tail` of list.h: "return `h.prev`". -/
def octo_list_tail (m : Mem) (h : Nat) : Nat := (m h).prev

/-- Modelled from the spec: the loop of the `octo_list_foreach` macro of list.h,
which is not among the sources: starting at `pos`, it "reads `next = pos.next`
before yielding `pos`" and stops when `pos` is the head.  The result is the
sequence of nodes yielded. -/
def octo_list_foreach_from (m : Mem) (list : Nat) : Nat → Nat → Option (List Nat)
  | 0, _ => none
  | fuel + 1, pos =>
    if pos = list then some []
    else
      let next := (m pos).next
      (octo_list_foreach_from m list fuel next).map (fun r => pos :: r)

/-- Modelled from the spec: `octo_list_foreach` with an empty body; the nodes it
visits, in order. -/
def octo_list_foreach (m : Mem) (list : Nat) (fuel : Nat) : Option (List Nat) :=
  octo_list_foreach_from m list fuel (m list).next

/-- Modelled from the spec: the counting loop of `octo_list_size` of list.h,
which is not among the sources: "linear-time count". -/
def octo_list_size_from (m : Mem) (list : Nat) : Nat → Nat → Option Nat
  | 0, _ => none
  | fuel + 1, pos =>
    if pos = list then some 0
    else (octo_list_size_from m list fuel (m pos).next).map (fun r => r + 1)

/-- Modelled from the spec: `octo_list_size`. -/
def octo_list_size (m : Mem) (list : Nat) (fuel : Nat) : Option Nat :=
  octo_list_size_from m list fuel (m list).next

/-- Modelled from the spec: the loop of `octo_list_destroy` of list.h, which is
not among the sources.  The spec names the operation and says no more of it;
the unit tests fix that afterwards the head is self-linked, and that the element
of a one-element list is self-linked too.  This loop, a foreach that removes each
element, meets both.  What becomes of the elements of a longer list is a choice
of this model that neither the spec nor the tests fix; the theorems of this file
use the loop only for the head being self-linked when it returns. -/
def octo_list_destroy_from (list : Nat) : Nat → Mem → Nat → Option Mem
  | 0, _, _ => none
  | fuel + 1, m, pos =>
    if pos = list then some m
    else
      let next := (m pos).next
      octo_list_destroy_from list fuel (octo_list_remove m pos) next

/-- Modelled from the spec: `octo_list_destroy`, the loop above started at the
first element. -/
def octo_list_destroy (m : Mem) (list : Nat) (fuel : Nat) : Option Mem :=
  octo_list_destroy_from list fuel m (m list).next

/-! ## libc and macros used by hash.h -/

/-- The C library `strncmp` on byte strings: compares at most `n` bytes and stops
after a NUL byte; a byte past the end of the list reads as NUL. -/
def strncmp : List Nat → List Nat → Nat → Int
  | _, _, 0 => 0
  | s1, s2, n + 1 =>
    let c1 := s1.headD 0
    let c2 := s2.headD 0
    if c1 ≠ c2 then (c1 : Int) - (c2 : Int)
    else if c1 = 0 then 0
    else strncmp s1.tail s2.tail n

/-- The macro `min(x, y) ((x)<(y)?(x):(y))` of hash.h. -/
def octo_min (x y : Nat) : Nat := if x < y then x else y

/-! ## hash.h -/

/-- The entry members beside the list node: the memory seen by the hash table. -/
structure Heap where
  node : Mem
  keylen : Nat → Nat
  key : Nat → List Nat

/-- The table record, `struct octo_hash`; `hash_bins` is the address of the bucket
array and bucket `i` is the node at `hash_bins + i`. -/
structure octo_hash where
  hash_function : List Nat → Nat → Nat → Nat
  hash_seed : Nat
  n_hash_bins : Nat
  hash_bins : Nat

/-- `power_of_two` on a 32-bit unsigned value. -/
def power_of_two (x : Nat) : Bool :=
  (x != 0) && ((x &&& ((x + 4294967295) % 4294967296)) == 0)

/-- The bucket initialisation loop of `octo_hash_init`. -/
def octo_hash_init_bins (bins : Nat) : Nat → Mem → Mem
  | 0, m => m
  | i + 1, m => octo_list_init (octo_hash_init_bins bins i m) (bins + i)

/-- `octo_hash_init`; `bins` is the address returned by `malloc`.  The result is
`none` when an assertion fails. -/
def octo_hash_init (s : Heap) (bins : Nat) (hash_function : List Nat → Nat → Nat → Nat)
    (seed pow2size : Nat) : Option (octo_hash × Heap) :=
  if pow2size < 32 then
    let n := (1 <<< pow2size) % 4294967296
    let t : octo_hash := ⟨hash_function, seed, n, bins⟩
    let s1 : Heap := { s with node := octo_hash_init_bins bins n s.node }
    if n != 0 && power_of_two n then some (t, s1) else none
  else none

/-- `octo_hash_nbin`: the mask `keyhash & (bins-1)` on 32-bit unsigned values. -/
def octo_hash_nbin (bins keyhash : Nat) : Nat :=
  keyhash &&& ((bins + 4294967295) % 4294967296)

/-- `octo_hash_bin`: the address of the bucket of a hash value; `none` when the
assertion `nbin < n_hash_bins` fails. -/
def octo_hash_bin (t : octo_hash) (keyhash : Nat) : Option Nat :=
  let nbin := octo_hash_nbin t.n_hash_bins keyhash
  if nbin < t.n_hash_bins then some (t.hash_bins + nbin) else none

/-- The summing loop of `octo_hash_size` over the first `i` buckets. -/
def octo_hash_size_upto (t : octo_hash) (s : Heap) (fuel : Nat) : Nat → Option Nat
  | 0 => some 0
  | i + 1 => do
    let size ← octo_hash_size_upto t s fuel i
    let k ← octo_list_size s.node (t.hash_bins + i) fuel
    pure (size + k)

/-- `octo_hash_size`. -/
def octo_hash_size (t : octo_hash) (s : Heap) (fuel : Nat) : Option Nat :=
  octo_hash_size_upto t s fuel t.n_hash_bins

/-- The call of the table's hash function, stored in a `uint32_t`. -/
def octo_hash_keyhash (t : octo_hash) (key : List Nat) (keylen : Nat) : Nat :=
  t.hash_function key keylen t.hash_seed % 4294967296

/-- The foreach loop of `octo_hash_bin_has`. -/
def octo_hash_bin_has_from (s : Heap) (list : Nat) (key : List Nat) (keylen : Nat) :
    Nat → Nat → Option Bool
  | 0, _ => none
  | fuel + 1, pos =>
    if pos = list then some false
    else
      let next := (s.node pos).next
      if strncmp key (s.key pos) (octo_min (s.keylen pos) keylen) = 0 then some true
      else octo_hash_bin_has_from s list key keylen fuel next

/-- `octo_hash_bin_has`. -/
def octo_hash_bin_has (t : octo_hash) (s : Heap) (keyhash : Nat) (key : List Nat)
    (keylen : Nat) (fuel : Nat) : Option Bool := do
  let list ← octo_hash_bin t keyhash
  octo_hash_bin_has_from s list key keylen fuel (s.node list).next

/-- `octo_hash_has`. -/
def octo_hash_has (t : octo_hash) (s : Heap) (key : List Nat) (keylen : Nat)
    (fuel : Nat) : Option Bool :=
  let keyhash := octo_hash_keyhash t key keylen
  octo_hash_bin_has t s keyhash key keylen fuel

/-- `octo_hash_set_key`. -/
def octo_hash_set_key (s : Heap) (entry : Nat) (key : List Nat) (keylen : Nat) : Heap :=
  { s with
    key := fun a => if a = entry then key else s.key a
    keylen := fun a => if a = entry then keylen else s.keylen a }

/-- `octo_hash_put`: the new memory and the returned flag. -/
def octo_hash_put (t : octo_hash) (s : Heap) (entry : Nat) (fuel : Nat) :
    Option (Heap × Bool) := do
  let keyhash := octo_hash_keyhash t (s.key entry) (s.keylen entry)
  let list ← octo_hash_bin t keyhash
  if octo_list_empty s.node list then
    pure ({ s with node := octo_list_add s.node list entry }, true)
  else
    let has ← octo_hash_bin_has t s keyhash (s.key entry) (s.keylen entry) fuel
    if !has then
      pure ({ s with node := octo_list_add s.node list entry }, true)
    else
      pure (s, false)

/-- `octo_hash_add`. -/
def octo_hash_add (t : octo_hash) (s : Heap) (entry : Nat) (key : List Nat)
    (keylen : Nat) (fuel : Nat) : Option (Heap × Bool) :=
  octo_hash_put t (octo_hash_set_key s entry key keylen) entry fuel

/-- The foreach loop of `octo_hash_get`; the inner `none` is NULL. -/
def octo_hash_get_from (s : Heap) (list : Nat) (key : List Nat) (keylen : Nat) :
    Nat → Nat → Option (Option Nat)
  | 0, _ => none
  | fuel + 1, pos =>
    if pos = list then some none
    else
      let next := (s.node pos).next
      if strncmp key (s.key pos) (octo_min (s.keylen pos) keylen) = 0 then some (some pos)
      else octo_hash_get_from s list key keylen fuel next

/-- `octo_hash_get`. -/
def octo_hash_get (t : octo_hash) (s : Heap) (key : List Nat) (keylen : Nat)
    (fuel : Nat) : Option (Option Nat) := do
  let keyhash := octo_hash_keyhash t key keylen
  let list ← octo_hash_bin t keyhash
  octo_hash_get_from s list key keylen fuel (s.node list).next

/-- The foreach loop of `octo_hash_pop`. -/
def octo_hash_pop_from (s : Heap) (list : Nat) (key : List Nat) (keylen : Nat) :
    Nat → Nat → Option (Heap × Option Nat)
  | 0, _ => none
  | fuel + 1, pos =>
    if pos = list then some (s, none)
    else
      let next := (s.node pos).next
      if strncmp key (s.key pos) (octo_min (s.keylen pos) keylen) = 0 then
        some ({ s with node := octo_list_remove s.node pos }, some pos)
      else octo_hash_pop_from s list key keylen fuel next

/-- `octo_hash_pop`: the new memory and the entry returned (`none` is NULL). -/
def octo_hash_pop (t : octo_hash) (s : Heap) (key : List Nat) (keylen : Nat)
    (fuel : Nat) : Option (Heap × Option Nat) := do
  let keyhash := octo_hash_keyhash t key keylen
  let list ← octo_hash_bin t keyhash
  octo_hash_pop_from s list key keylen fuel (s.node list).next

/-! ## buffer.h and buffer.c -/

/-- Byte memory, addressed by offset from a `uint8_t` pointer. -/
abbrev Bytes := Nat → Nat

/-- The C library `memcpy`: the first `n` bytes of `dst` become those of `src`. -/
def memcpy (dst src : Bytes) (n : Nat) : Bytes :=
  fun i => if i < n then src i else dst i

/-- Subtraction of two `size_t` values, taken 64 bits wide. -/
def size_t_sub (x y : Nat) : Nat :=
  (x + 18446744073709551616 - y) % 18446744073709551616

/-- Modelled from the spec: `struct octo_buffer_item` of buffer.h, which is not
among the sources: "`capacity`, `size`, `start`, an inline byte array" (`data`);
its intrusive list node is the node at the address of the segment. -/
structure octo_buffer_item where
  start : Nat
  size : Nat
  capacity : Nat
  data : Bytes

/-- The memory seen by buffer.c.  Modelled from the spec: `struct octo_buffer` of
buffer.h, which is not among the sources, is "a sentinel list head plus a cached
`size`": the head `buffer_list` of the buffer at address `b` is the node at `b`,
and `size b` is its `size` member. -/
structure BufHeap where
  node : Mem
  item : Nat → octo_buffer_item
  size : Nat → Nat

/-- Modelled from the spec: the macro `octo_list_entry` of list.h, which is not
among the sources: container recovery; a segment and its list node are
identified by one address. -/
def octo_list_entry (ptr : Nat) : Nat := ptr

/-- `octo_buffer_item_alloc`; `p` is the address returned by `malloc`, and the
bytes of the new segment are whatever that memory held. -/
def octo_buffer_item_alloc (st : BufHeap) (p : Nat) (len : Nat) : BufHeap × Nat :=
  let item := p
  ({ st with item := fun a =>
      if a = item then { st.item a with start := 0, size := 0, capacity := len }
      else st.item a }, item)

/-- `octo_buffer_item_size`. -/
def octo_buffer_item_size (st : BufHeap) (item : Nat) : Nat :=
  (st.item item).size

/-- `octo_buffer_item_capacity`. -/
def octo_buffer_item_capacity (st : BufHeap) (item : Nat) : Nat :=
  (st.item item).capacity

/-- `octo_buffer_item_remaining`: `item->capacity - item->start`. -/
def octo_buffer_item_remaining (st : BufHeap) (item : Nat) : Nat :=
  size_t_sub (st.item item).capacity (st.item item).start

/-- `octo_buffer_init`. -/
def octo_buffer_init (st : BufHeap) (b : Nat) : BufHeap :=
  { st with
    node := octo_list_init st.node b,
    size := fun a => if a = b then 0 else st.size a }

/-- `octo_buffer_size`. -/
def octo_buffer_size (st : BufHeap) (b : Nat) : Nat :=
  st.size b

/-- `octo_buffer_write`: the new memory and the returned count.  `push` is
`octo_list_push` of list.h, which is neither among the sources nor described by
the spec, and `p` is the address returned by `malloc`. -/
def octo_buffer_write (push : Mem → Nat → Nat → Mem) (st : BufHeap) (p : Nat)
    (b : Nat) (data : Bytes) (len : Nat) : BufHeap × Nat :=
  let r := octo_buffer_item_alloc st p len
  let st1 := r.1
  let item := r.2
  let n := octo_min len (octo_buffer_item_remaining st1 item)
  let st2 : BufHeap :=
    { st1 with item := fun a =>
        if a = item then { st1.item a with data := memcpy (st1.item a).data data n }
        else st1.item a }
  let st3 : BufHeap := { st2 with node := push st2.node b item }
  (st3, len)

/-- `octo_buffer_read`: the memory afterwards and the destination bytes.  The
source has no `return` statement, so no count is part of the result. -/
def octo_buffer_read (st : BufHeap) (b : Nat) (data : Bytes) (len : Nat) :
    BufHeap × Bytes :=
  let item := octo_list_entry (octo_list_tail st.node b)
  let cpylen := octo_min len (octo_buffer_item_remaining st item)
  (st, memcpy data (st.item item).data cpylen)

/-! ## Representation of a circular list -/

/-- `Links m a xs z`: following `next` from `a` passes through `xs` and arrives
at `z`, and every `prev` on the way points back. -/
def Links (m : Mem) : Nat → List Nat → Nat → Prop
  | a, [], z => (m a).next = z ∧ (m z).prev = a
  | a, x :: xs, z => (m a).next = x ∧ (m x).prev = a ∧ Links m x xs z

/-- `IsList m h xs`: the head `h` carries the elements `xs`, head to tail, as a
well-formed circular doubly linked list. -/
def IsList (m : Mem) (h : Nat) (xs : List Nat) : Prop :=
  Links m h xs h ∧ (h :: xs).Nodup


/-- The comparison made in the body of the three lookup loops of hash.h, for the
chain element `pos`. -/
def keymatch (s : Heap) (key : List Nat) (keylen : Nat) (pos : Nat) : Bool :=
  decide (strncmp key (s.key pos) (octo_min (s.keylen pos) keylen) = 0)


/-- The outcome of the pop loop on a chain: the first match, if any, is removed. -/
def popOutcome (s : Heap) (r : Option Nat) : Heap × Option Nat :=
  match r with
  | none => (s, none)
  | some pos => ({ s with node := octo_list_remove s.node pos }, some pos)


/-! ## Representation of a table -/

/-- `TableRep t s c`: in memory `s` the table `t` is well formed and bucket `i`
holds the chain `c i` (entry addresses, first to last). -/
structure TableRep (t : octo_hash) (s : Heap) (c : Nat → List Nat) : Prop where
  pow2 : ∃ k, k < 32 ∧ t.n_hash_bins = 2 ^ k
  lists : ∀ i, i < t.n_hash_bins → IsList s.node (t.hash_bins + i) (c i)
  outside : ∀ i, t.n_hash_bins ≤ i → c i = []
  notbin : ∀ i x, x ∈ c i → ∀ j, j < t.n_hash_bins → x ≠ t.hash_bins + j
  disjoint : ∀ i j x, x ∈ c i → x ∈ c j → i = j

/-- The bucket index the table computes for the key stored in entry `x`. -/
def entryBin (t : octo_hash) (s : Heap) (x : Nat) : Nat :=
  octo_hash_nbin t.n_hash_bins (octo_hash_keyhash t (s.key x) (s.keylen x))

/-- Every resident entry is in the bucket of its own key. -/
def Placed (t : octo_hash) (s : Heap) (c : Nat → List Nat) : Prop :=
  ∀ i x, x ∈ c i → entryBin t s x = i

/-- The entry `e` is neither a bucket head nor resident in a chain. -/
def Detached (t : octo_hash) (c : Nat → List Nat) (e : Nat) : Prop :=
  (∀ i, e ∉ c i) ∧ ∀ j, j < t.n_hash_bins → e ≠ t.hash_bins + j

/-- No two entries of one chain compare equal under the comparison of the code. -/
def NoMatch (s : Heap) (c : Nat → List Nat) : Prop :=
  ∀ i, (c i).Pairwise (fun a b => keymatch s (s.key a) (s.keylen a) b = false)


/-- The outcome of `octo_hash_put` in terms of the chain of the entry's bucket. -/
def putOutcome (t : octo_hash) (s : Heap) (c : Nat → List Nat) (e : Nat) : Heap × Bool :=
  if (c (entryBin t s e)).any (keymatch s (s.key e) (s.keylen e)) then (s, false)
  else ({ s with node := octo_list_add s.node (t.hash_bins + entryBin t s e) e }, true)


/-- The table states reachable from `octo_hash_init` by `octo_hash_put` and
`octo_hash_add` of detached entries and by `octo_hash_pop`, each call having
returned. -/
inductive Reachable (t : octo_hash) : Heap → Prop
  | init (s0 s : Heap) (pow2size : Nat) :
      octo_hash_init s0 t.hash_bins t.hash_function t.hash_seed pow2size = some (t, s) →
      Reachable t s
  | put (s s' : Heap) (c : Nat → List Nat) (e fuel : Nat) (b : Bool) :
      Reachable t s → TableRep t s c → Detached t c e →
      octo_hash_put t s e fuel = some (s', b) → Reachable t s'
  | add (s s' : Heap) (c : Nat → List Nat) (e : Nat) (key : List Nat) (keylen fuel : Nat)
      (b : Bool) :
      Reachable t s → TableRep t s c → Detached t c e →
      octo_hash_add t s e key keylen fuel = some (s', b) → Reachable t s'
  | pop (s s' : Heap) (key : List Nat) (keylen fuel : Nat) (r : Option Nat) :
      Reachable t s → octo_hash_pop t s key keylen fuel = some (s', r) → Reachable t s'

/-- The invariant of reachable states: some chains represent the table, every
entry is in the bucket of its key, and no chain holds two entries that compare
equal. -/
def TableInv (t : octo_hash) (s : Heap) : Prop :=
  ∃ c, TableRep t s c ∧ Placed t s c ∧ NoMatch s c

/-! ## Sample inputs -/

/-- A sample hash function: the seed plus the sum of the key bytes. -/
def sampleHash (key : List Nat) (_keylen : Nat) (seed : Nat) : Nat :=
  key.foldl (fun a b => a + b) seed

/-- Sample memory before any call: the entries at addresses 1, 2, 3 and 4 carry
the keys "ab", "abc", "ab" and "cd"; all links are still zero. -/
def sampleHeap : Heap where
  node := fun _ => ⟨0, 0⟩
  keylen := fun a => if a = 1 then 2 else if a = 2 then 3 else if a = 3 then 2
    else if a = 4 then 2 else 0
  key := fun a => if a = 1 then [97, 98] else if a = 2 then [97, 98, 99]
    else if a = 3 then [97, 98] else if a = 4 then [99, 100] else []

/-- A table of one bucket (`pow2size = 0`) whose bucket array is at address 100. -/
def sampleTable : octo_hash := ⟨sampleHash, 0, 2 ^ 0, 100⟩

/-- The sample memory after `octo_hash_init`. -/
def sampleHeap0 : Heap :=
  { sampleHeap with node := octo_hash_init_bins 100 (2 ^ 0) sampleHeap.node }

/-- The sample memory after the entry at address 1 (key "ab") has been put. -/
def sampleHeap1 : Heap :=
  { sampleHeap0 with node := octo_list_add sampleHeap0.node (100 + 0) 1 }

/-- The chains of `sampleHeap1`: the one bucket holds the entry at address 1. -/
def sampleChains1 : Nat → List Nat :=
  Function.update (fun _ => []) 0 [1]

/-- The sample memory after the entry at address 4 (key "cd") has been put too. -/
def sampleHeap2 : Heap :=
  { sampleHeap1 with node := octo_list_add sampleHeap1.node (100 + 0) 4 }

/-- The chains of `sampleHeap2`: entry 4 is in front of entry 1. -/
def sampleChains2 : Nat → List Nat :=
  Function.update sampleChains1 0 [4, 1]

/-! ## Buffers: assumptions and sample inputs -/

/-- What is assumed of the absent `octo_list_push`: it links a detached node into
a well-formed list, at the front or at the back. -/
def PushSpec (push : Mem → Nat → Nat → Mem) : Prop :=
  ∀ (m : Mem) (h x : Nat) (xs : List Nat), IsList m h xs → x ∉ h :: xs →
    IsList (push m h x) h (x :: xs) ∨ IsList (push m h x) h (xs ++ [x])

/-- Sample buffer memory before any call: all links, fields and bytes are zero. -/
def sampleBuf : BufHeap where
  node := fun _ => ⟨0, 0⟩
  item := fun _ => ⟨0, 0, 0, fun _ => 0⟩
  size := fun _ => 0

/-- The bytes of "abcdef", followed by zeros. -/
def sampleBytes : Bytes :=
  fun i => [97, 98, 99, 100, 101, 102].getD i 0

/-- A destination array filled with the byte 255. -/
def sampleDst : Bytes := fun _ => 255

/-! ## Reachable list states -/

/-- The node reached from `h` by following `next` links `k` times. -/
def octo_list_nth_next (m : Mem) (h : Nat) : Nat → Nat
  | 0 => h
  | k + 1 => (m (octo_list_nth_next m h k)).next

/-- The node reached from `h` by following `prev` links `k` times. -/
def octo_list_nth_prev (m : Mem) (h : Nat) : Nat → Nat
  | 0 => h
  | k + 1 => (m (octo_list_nth_prev m h k)).prev

/-- The memories reachable for the list with head `h`: from `octo_list_init(h)` by
`octo_list_add`, `octo_list_prepend` and `octo_list_append` of nodes that are
not in the list, by `octo_list_remove` of elements, and by `octo_list_destroy`
when it returns. -/
inductive ListReachable (h : Nat) : Mem → Prop
  | init (m : Mem) : ListReachable h (octo_list_init m h)
  | add (m : Mem) (xs : List Nat) (x : Nat) :
      ListReachable h m → IsList m h xs → x ∉ h :: xs →
      ListReachable h (octo_list_add m h x)
  | prepend (m : Mem) (xs : List Nat) (x : Nat) :
      ListReachable h m → IsList m h xs → x ∉ h :: xs →
      ListReachable h (octo_list_prepend m h x)
  | append (m : Mem) (xs : List Nat) (x : Nat) :
      ListReachable h m → IsList m h xs → x ∉ h :: xs →
      ListReachable h (octo_list_append m h x)
  | remove (m : Mem) (xs : List Nat) (x : Nat) :
      ListReachable h m → IsList m h xs → x ∈ xs →
      ListReachable h (octo_list_remove m x)
  | destroy (m m' : Mem) (fuel : Nat) :
      ListReachable h m → octo_list_destroy m h fuel = some m' →
      ListReachable h m'

/-- Sample list memory: the list at address 10 after 1 and then 2 were appended. -/
def sampleList : Mem :=
  octo_list_append (octo_list_append (octo_list_init (fun _ => ⟨0, 0⟩) 10) 10 1) 10 2

/-! ## Reachable buffer states -/

@[simp] theorem Mem.set_apply (m : Mem) (a b : Nat) (v : octo_list) :
    (m.set a v) b = if b = a then v else m b := rfl

theorem octo_list_init_apply (m : Mem) (n a : Nat) :
    octo_list_init m n a = if a = n then ⟨n, n⟩ else m a := rfl

theorem octo_list_add_next (m : Mem) (h x a : Nat) :
    (octo_list_add m h x a).next =
      if a = h then x else if a = x then (m h).next else (m a).next := by
  simp only [octo_list_add, Mem.set_apply]
  split_ifs <;> (try subst_vars) <;> (try dsimp only) <;> (try omega)

theorem octo_list_add_prev (m : Mem) (h x a : Nat) :
    (octo_list_add m h x a).prev =
      if a = (m h).next then x else if a = x then h else (m a).prev := by
  simp only [octo_list_add, Mem.set_apply]
  split_ifs <;> (try subst_vars) <;> (try dsimp only) <;> (try omega)

theorem octo_list_append_next (m : Mem) (h x a : Nat) :
    (octo_list_append m h x a).next =
      if a = (m h).prev then x else if a = x then h else (m a).next := by
  simp only [octo_list_append, Mem.set_apply]
  split_ifs <;> (try subst_vars) <;> (try dsimp only) <;> (try omega)

theorem octo_list_append_prev (m : Mem) (h x a : Nat) :
    (octo_list_append m h x a).prev =
      if a = h then x else if a = x then (m h).prev else (m a).prev := by
  simp only [octo_list_append, Mem.set_apply]
  split_ifs <;> (try subst_vars) <;> (try dsimp only) <;> (try omega)

theorem octo_list_remove_next (m : Mem) (x a : Nat) :
    (octo_list_remove m x a).next =
      if a = x then x else if a = (m x).prev then (m x).next else (m a).next := by
  simp only [octo_list_remove, octo_list_init, Mem.set_apply]
  split_ifs <;> (try subst_vars) <;> (try dsimp only) <;> (try omega)

theorem octo_list_remove_prev (m : Mem) (x a : Nat) :
    (octo_list_remove m x a).prev =
      if a = x then x else if a = (m x).next then (m x).prev else (m a).prev := by
  simp only [octo_list_remove, octo_list_init, Mem.set_apply]
  split_ifs <;> (try subst_vars) <;> (try dsimp only)

theorem octo_list_add_other (m : Mem) (h x a : Nat) (h1 : a ≠ x) (h2 : a ≠ h)
    (h3 : a ≠ (m h).next) : octo_list_add m h x a = m a := by
  simp [octo_list_add, Mem.set_apply, h1, h2, h3]

theorem octo_list_remove_other (m : Mem) (x a : Nat) (h1 : a ≠ x) (h2 : a ≠ (m x).prev)
    (h3 : a ≠ (m x).next) : octo_list_remove m x a = m a := by
  simp [octo_list_remove, octo_list_init, Mem.set_apply, h1, h2, h3]

/-! ### Lemmas on `Links` -/

theorem Links_congr {m m' : Mem} : ∀ (xs : List Nat) (a z : Nat),
    (∀ b ∈ a :: xs, (m' b).next = (m b).next) →
    (∀ b ∈ xs ++ [z], (m' b).prev = (m b).prev) →
    Links m a xs z → Links m' a xs z
  | [], a, z, hn, hp, hl => by
    simp only [Links] at hl ⊢
    rw [hn a (by simp), hp z (by simp)]
    exact hl
  | x :: xs, a, z, hn, hp, hl => by
    simp only [Links] at hl ⊢
    refine ⟨by rw [hn a (by simp)]; exact hl.1, by rw [hp x (by simp)]; exact hl.2.1, ?_⟩
    exact Links_congr xs x z (fun b hb => hn b (List.mem_cons_of_mem _ hb))
      (fun b hb => hp b (by simp only [List.cons_append]; exact List.mem_cons_of_mem _ hb)) hl.2.2

theorem Links_append {m : Mem} : ∀ (xs : List Nat) (a y : Nat) (ys : List Nat) (z : Nat),
    Links m a (xs ++ y :: ys) z ↔ Links m a xs y ∧ Links m y ys z
  | [], a, y, ys, z => by
    simp only [List.nil_append, Links]
    tauto
  | x :: xs, a, y, ys, z => by
    have ih := Links_append (m := m) xs x y ys z
    show ((m a).next = x ∧ (m x).prev = a ∧ Links m x (xs ++ y :: ys) z) ↔
      ((m a).next = x ∧ (m x).prev = a ∧ Links m x xs y) ∧ Links m y ys z
    rw [ih]
    tauto

/-- The predecessor of an element lies before it. -/
theorem Links_prev_mem {m : Mem} : ∀ (pre : List Nat) (a x : Nat),
    Links m a pre x → (m x).prev ∈ a :: pre
  | [], a, x, hl => by
    simp only [Links] at hl
    simp [hl.2]
  | b :: pre, a, x, hl => by
    simp only [Links] at hl
    exact List.mem_cons_of_mem _ (Links_prev_mem pre b x hl.2.2)

/-- The successor of a node is the first of what follows it. -/
theorem Links_next_mem {m : Mem} (x : Nat) (post : List Nat) (z : Nat)
    (hl : Links m x post z) : (m x).next ∈ post ++ [z] := by
  cases post with
  | nil => simp only [Links] at hl; simp [hl.1]
  | cons y ys => simp only [Links] at hl; simp [hl.1]

theorem IsList_congr {m m' : Mem} {h : Nat} {xs : List Nat}
    (hm : ∀ a ∈ h :: xs, m' a = m a) (hl : IsList m h xs) : IsList m' h xs := by
  refine ⟨Links_congr xs h h (fun b hb => by rw [hm b hb]) (fun b hb => ?_) hl.1, hl.2⟩
  rw [hm b]
  simp only [List.mem_append, List.mem_singleton] at hb
  rcases hb with hb | hb
  · exact List.mem_cons_of_mem _ hb
  · simp [hb]

theorem IsList_nil_iff (m : Mem) (h : Nat) : IsList m h [] ↔ m h = ⟨h, h⟩ := by
  simp only [IsList, Links, List.nodup_cons, List.not_mem_nil, not_false_eq_true,
    List.nodup_nil, and_self, and_true]
  constructor
  · intro hl
    cases hm : m h with
    | mk n p => rw [hm] at hl; simp_all
  · intro hl; rw [hl]; simp

/-! ### Insertion and removal on the representation -/

theorem IsList_add {m : Mem} {h x : Nat} {xs : List Nat} (hl : IsList m h xs)
    (hx : x ∉ h :: xs) : IsList (octo_list_add m h x) h (x :: xs) := by
  obtain ⟨hlk, hnd⟩ := hl
  have hxh : x ≠ h := fun e => hx (by simp [e])
  have hxs : x ∉ xs := fun e => hx (List.mem_cons_of_mem _ e)
  have hhs : h ∉ xs := (List.nodup_cons.1 hnd).1
  refine ⟨?_, ?_⟩
  · cases xs with
    | nil =>
      simp only [Links] at hlk ⊢
      simp only [octo_list_add_next, octo_list_add_prev, hlk.1]
      simp [hxh]
    | cons y ys =>
      simp only [Links] at hlk ⊢
      have hyh : y ≠ h := fun e => hhs (by simp [e])
      have hxy : x ≠ y := fun e => hxs (by simp [e])
      have hnd2 : (y :: ys).Nodup := (List.nodup_cons.1 hnd).2
      refine ⟨by simp [octo_list_add_next], ?_, ?_, ?_, ?_⟩
      · simp [octo_list_add_prev, hlk.1, hxy]
      · simp [octo_list_add_next, hlk.1, hxh]
      · simp [octo_list_add_prev, hlk.1]
      · refine Links_congr ys y h (fun b hb => ?_) (fun b hb => ?_) hlk.2.2
        · have hbh : b ≠ h := fun e => hhs (e ▸ hb)
          have hbx : b ≠ x := fun e => hxs (e ▸ hb)
          simp [octo_list_add_next, hbh, hbx]
        · have hby : b ≠ y := by
            simp only [List.mem_append, List.mem_singleton] at hb
            rcases hb with hb | hb
            · exact fun e => (List.nodup_cons.1 hnd2).1 (e ▸ hb)
            · exact fun e => hyh (e.symm.trans hb)
          have hbx : b ≠ x := by
            simp only [List.mem_append, List.mem_singleton] at hb
            rcases hb with hb | hb
            · exact fun e => hxs (List.mem_cons_of_mem _ (e ▸ hb))
            · exact fun e => hxh (e.symm.trans hb)
          simp [octo_list_add_prev, hlk.1, hby, hbx]
  · simp only [List.nodup_cons, List.mem_cons, not_or]
    exact ⟨⟨fun e => hxh e.symm, hhs⟩, hxs, (List.nodup_cons.1 hnd).2⟩

theorem Links_append_tail {m : Mem} {h x : Nat} : ∀ (xs : List Nat) (a : Nat),
    Links m a xs h → (a :: xs).Nodup → h ∉ xs → x ∉ a :: xs → x ≠ h →
    Links (octo_list_append m h x) a xs x
  | [], a, hl, _, _, hx, hxh => by
    simp only [Links] at hl ⊢
    have hxa : x ≠ a := fun e => hx (by simp [e])
    simp [octo_list_append_next, octo_list_append_prev, hl.2, hxh]
  | b :: xs, a, hl, hnd, hh, hx, hxh => by
    simp only [Links] at hl ⊢
    have hp := Links_prev_mem xs b h hl.2.2
    have hap : a ≠ (m h).prev := fun e => (List.nodup_cons.1 hnd).1 (e ▸ hp)
    have hax : a ≠ x := fun e => hx (by simp [e])
    have hbh : b ≠ h := fun e => hh (by simp [e])
    have hbx : b ≠ x := fun e => hx (by simp [e])
    refine ⟨by simp [octo_list_append_next, hap, hax, hl.1],
      by simp [octo_list_append_prev, hbh, hbx, hl.2.1], ?_⟩
    exact Links_append_tail xs b hl.2.2 (List.nodup_cons.1 hnd).2
      (fun e => hh (List.mem_cons_of_mem _ e)) (fun e => hx (List.mem_cons_of_mem _ e)) hxh

theorem IsList_append {m : Mem} {h x : Nat} {xs : List Nat} (hl : IsList m h xs)
    (hx : x ∉ h :: xs) : IsList (octo_list_append m h x) h (xs ++ [x]) := by
  obtain ⟨hlk, hnd⟩ := hl
  have hxh : x ≠ h := fun e => hx (by simp [e])
  have hxs : x ∉ xs := fun e => hx (List.mem_cons_of_mem _ e)
  have hhs : h ∉ xs := (List.nodup_cons.1 hnd).1
  refine ⟨(Links_append xs h x [] h).2 ⟨Links_append_tail xs h hlk hnd hhs hx hxh, ?_⟩, ?_⟩
  · have hxp : x ≠ (m h).prev := fun e => hx (e ▸ Links_prev_mem xs h h hlk)
    simp only [Links]
    simp [octo_list_append_next, octo_list_append_prev, hxh, hxp]
  · have hnd2 : xs.Nodup := (List.nodup_cons.1 hnd).2
    simp only [List.nodup_cons, List.mem_append, List.mem_singleton, not_or]
    refine ⟨⟨hhs, fun e => hxh e.symm⟩, ?_⟩
    exact List.Nodup.append hnd2 (List.nodup_singleton x) (by simpa using hxs)

theorem Links_remove {m : Mem} {x z : Nat} {post : List Nat} : ∀ (pre : List Nat) (a : Nat),
    Links m a (pre ++ x :: post) z → (a :: (pre ++ x :: post)).Nodup →
    z ∉ pre ++ x :: post → Links (octo_list_remove m x) a (pre ++ post) z
  | [], a, hl, hnd, hz => by
    simp only [List.nil_append, Links] at hl hnd hz ⊢
    simp only [List.nodup_cons, List.mem_cons, not_or] at hnd hz
    obtain ⟨⟨hax, hapost⟩, hxpost, hndpost⟩ := hnd
    cases post with
    | nil =>
      simp only [Links] at hl ⊢
      simp [octo_list_remove_next, octo_list_remove_prev, hl.1, hl.2.1, hl.2.2.1, hax,
        hz.1]
    | cons y ys =>
      simp only [Links] at hl ⊢
      have hay : a ≠ y := fun e => hapost (by simp [e])
      have hxy : x ≠ y := fun e => hxpost (by simp [e])
      refine ⟨by simp [octo_list_remove_next, hl.1, hl.2.1, hl.2.2.1, hax],
        by simp [octo_list_remove_prev, hl.2.1, hl.2.2.1, Ne.symm hxy], ?_⟩
      refine Links_congr ys y z (fun b hb => ?_) (fun b hb => ?_) hl.2.2.2.2
      · have hbx : b ≠ x := fun e => hxpost (e ▸ hb)
        have hba : b ≠ a := fun e => hapost (e ▸ hb)
        simp [octo_list_remove_next, hl.2.1, hbx, hba]
      · have hby : b ≠ y := by
          simp only [List.mem_append, List.mem_singleton] at hb
          rcases hb with hb | hb
          · exact fun e => (List.nodup_cons.1 hndpost).1 (e ▸ hb)
          · exact fun e => hz.2 (by simp [← hb, e])
        have hbx : b ≠ x := by
          simp only [List.mem_append, List.mem_singleton] at hb
          rcases hb with hb | hb
          · exact fun e => hxpost (List.mem_cons_of_mem _ (e ▸ hb))
          · exact fun e => hz.1 (hb.symm.trans e)
        simp [octo_list_remove_prev, hl.2.2.1, hby, hbx]
  | b :: pre, a, hl, hnd, hz => by
    have hl2 : (m a).next = b ∧ (m b).prev = a ∧ Links m b (pre ++ x :: post) z := hl
    show (octo_list_remove m x a).next = b ∧ (octo_list_remove m x b).prev = a ∧
      Links (octo_list_remove m x) b (pre ++ post) z
    have hsplit := (Links_append pre b x post z).1 hl2.2.2
    have hp := Links_prev_mem pre b x hsplit.1
    have hn := Links_next_mem x post z hsplit.2
    have hnd1 := List.nodup_cons.1 hnd
    have hnd2 : (b :: (pre ++ x :: post)).Nodup := hnd1.2
    have hnd3 := List.nodup_cons.1 hnd2
    have hax : a ≠ x := fun e => hnd1.1 (by simp [e])
    have hap : a ≠ (m x).prev := by
      intro e
      apply hnd1.1
      rw [e]
      rcases List.mem_cons.1 hp with hp | hp
      · simp [hp]
      · exact List.mem_cons_of_mem _ (List.mem_append_left _ hp)
    have hbx : b ≠ x := fun e => hnd3.1 (by simp [e])
    have hbn : b ≠ (m x).next := by
      intro e
      rw [← e] at hn
      rcases List.mem_append.1 hn with hn | hn
      · exact hnd3.1 (List.mem_append_right _ (List.mem_cons_of_mem _ hn))
      · exact hz (by simp [← List.mem_singleton.1 hn])
    refine ⟨by simp [octo_list_remove_next, hax, hap, hl2.1],
      by simp [octo_list_remove_prev, hbx, hbn, hl2.2.1], ?_⟩
    exact Links_remove pre b hl2.2.2 hnd2 (fun e => hz (List.mem_cons_of_mem _ e))

theorem IsList_remove {m : Mem} {h x : Nat} {pre post : List Nat}
    (hl : IsList m h (pre ++ x :: post)) :
    IsList (octo_list_remove m x) h (pre ++ post) := by
  obtain ⟨hlk, hnd⟩ := hl
  refine ⟨Links_remove pre h hlk hnd (List.nodup_cons.1 hnd).1, ?_⟩
  have hsub : (h :: (pre ++ post)).Sublist (h :: (pre ++ x :: post)) :=
    List.Sublist.cons₂ _ (List.Sublist.append (List.Sublist.refl _) (List.sublist_cons_self _ _))
  exact List.Nodup.sublist hsub hnd

theorem octo_list_remove_self (m : Mem) (x : Nat) : octo_list_remove m x x = ⟨x, x⟩ := by
  simp [octo_list_remove, octo_list_init]

/-! ### Traversals of a represented chain -/

theorem octo_list_foreach_from_Links {m : Mem} {z : Nat} : ∀ (xs : List Nat) (a fuel : Nat),
    Links m a xs z → z ∉ xs → xs.length < fuel →
    octo_list_foreach_from m z fuel (m a).next = some xs
  | [], a, fuel, hl, _, hf => by
    obtain ⟨f, rfl⟩ : ∃ f, fuel = f + 1 := ⟨fuel - 1, by omega⟩
    simp only [Links] at hl
    simp [octo_list_foreach_from, hl.1]
  | x :: xs, a, fuel, hl, hz, hf => by
    obtain ⟨f, rfl⟩ : ∃ f, fuel = f + 1 := ⟨fuel - 1, by omega⟩
    simp only [Links] at hl
    have hxz : x ≠ z := fun e => hz (by simp [e])
    have ih := octo_list_foreach_from_Links xs x f hl.2.2
      (fun e => hz (List.mem_cons_of_mem _ e)) (by simpa using hf)
    simp [octo_list_foreach_from, hl.1, hxz, ih]

theorem octo_list_size_from_Links {m : Mem} {z : Nat} : ∀ (xs : List Nat) (a fuel : Nat),
    Links m a xs z → z ∉ xs → xs.length < fuel →
    octo_list_size_from m z fuel (m a).next = some xs.length
  | [], a, fuel, hl, _, hf => by
    obtain ⟨f, rfl⟩ : ∃ f, fuel = f + 1 := ⟨fuel - 1, by omega⟩
    simp only [Links] at hl
    simp [octo_list_size_from, hl.1]
  | x :: xs, a, fuel, hl, hz, hf => by
    obtain ⟨f, rfl⟩ : ∃ f, fuel = f + 1 := ⟨fuel - 1, by omega⟩
    simp only [Links] at hl
    have hxz : x ≠ z := fun e => hz (by simp [e])
    have ih := octo_list_size_from_Links xs x f hl.2.2
      (fun e => hz (List.mem_cons_of_mem _ e)) (by simpa using hf)
    simp [octo_list_size_from, hl.1, hxz, ih]

theorem octo_hash_get_from_Links {s : Heap} {z : Nat} (key : List Nat) (keylen : Nat) :
    ∀ (xs : List Nat) (a fuel : Nat),
    Links s.node a xs z → z ∉ xs → xs.length < fuel →
    octo_hash_get_from s z key keylen fuel (s.node a).next =
      some (xs.find? (keymatch s key keylen))
  | [], a, fuel, hl, _, hf => by
    obtain ⟨f, rfl⟩ : ∃ f, fuel = f + 1 := ⟨fuel - 1, by omega⟩
    simp only [Links] at hl
    simp [octo_hash_get_from, hl.1]
  | x :: xs, a, fuel, hl, hz, hf => by
    obtain ⟨f, rfl⟩ : ∃ f, fuel = f + 1 := ⟨fuel - 1, by omega⟩
    simp only [Links] at hl
    have hxz : x ≠ z := fun e => hz (by simp [e])
    have ih := octo_hash_get_from_Links key keylen xs x f hl.2.2
      (fun e => hz (List.mem_cons_of_mem _ e)) (by simpa using hf)
    by_cases hk : strncmp key (s.key x) (octo_min (s.keylen x) keylen) = 0
    · simp [octo_hash_get_from, hl.1, hxz, keymatch, hk]
    · simp [octo_hash_get_from, hl.1, hxz, keymatch, hk, ih]

theorem octo_hash_bin_has_from_Links {s : Heap} {z : Nat} (key : List Nat) (keylen : Nat) :
    ∀ (xs : List Nat) (a fuel : Nat),
    Links s.node a xs z → z ∉ xs → xs.length < fuel →
    octo_hash_bin_has_from s z key keylen fuel (s.node a).next =
      some (xs.any (keymatch s key keylen))
  | [], a, fuel, hl, _, hf => by
    obtain ⟨f, rfl⟩ : ∃ f, fuel = f + 1 := ⟨fuel - 1, by omega⟩
    simp only [Links] at hl
    simp [octo_hash_bin_has_from, hl.1]
  | x :: xs, a, fuel, hl, hz, hf => by
    obtain ⟨f, rfl⟩ : ∃ f, fuel = f + 1 := ⟨fuel - 1, by omega⟩
    simp only [Links] at hl
    have hxz : x ≠ z := fun e => hz (by simp [e])
    have ih := octo_hash_bin_has_from_Links key keylen xs x f hl.2.2
      (fun e => hz (List.mem_cons_of_mem _ e)) (by simpa using hf)
    by_cases hk : strncmp key (s.key x) (octo_min (s.keylen x) keylen) = 0
    · simp [octo_hash_bin_has_from, hl.1, hxz, keymatch, hk]
    · simp [octo_hash_bin_has_from, hl.1, hxz, keymatch, hk, ih]

theorem octo_hash_pop_from_Links {s : Heap} {z : Nat} (key : List Nat) (keylen : Nat) :
    ∀ (xs : List Nat) (a fuel : Nat),
    Links s.node a xs z → z ∉ xs → xs.length < fuel →
    octo_hash_pop_from s z key keylen fuel (s.node a).next =
      some (popOutcome s (xs.find? (keymatch s key keylen)))
  | [], a, fuel, hl, _, hf => by
    obtain ⟨f, rfl⟩ : ∃ f, fuel = f + 1 := ⟨fuel - 1, by omega⟩
    simp only [Links] at hl
    simp [octo_hash_pop_from, hl.1, popOutcome]
  | x :: xs, a, fuel, hl, hz, hf => by
    obtain ⟨f, rfl⟩ : ∃ f, fuel = f + 1 := ⟨fuel - 1, by omega⟩
    simp only [Links] at hl
    have hxz : x ≠ z := fun e => hz (by simp [e])
    have ih := octo_hash_pop_from_Links key keylen xs x f hl.2.2
      (fun e => hz (List.mem_cons_of_mem _ e)) (by simpa using hf)
    by_cases hk : strncmp key (s.key x) (octo_min (s.keylen x) keylen) = 0
    · simp [octo_hash_pop_from, hl.1, hxz, keymatch, hk, popOutcome]
    · simp [octo_hash_pop_from, hl.1, hxz, keymatch, hk, ih]

theorem IsList_empty_iff {m : Mem} {h : Nat} {xs : List Nat} (hl : IsList m h xs) :
    octo_list_empty m h = true ↔ xs = [] := by
  obtain ⟨hlk, hnd⟩ := hl
  cases xs with
  | nil => simp only [Links] at hlk; simp [octo_list_empty, hlk.1]
  | cons y ys =>
    simp only [Links] at hlk
    have : y ≠ h := fun e => (List.nodup_cons.1 hnd).1 (by simp [e])
    simp [octo_list_empty, hlk.1, this]

/-- A memory represents at most one element sequence at a head. -/
theorem Links_unique {m : Mem} {z : Nat} : ∀ (xs ys : List Nat) (a : Nat),
    Links m a xs z → Links m a ys z → z ∉ xs → z ∉ ys → xs = ys
  | [], [], _, _, _, _, _ => rfl
  | [], y :: ys, a, h1, h2, _, hz => by
    simp only [Links] at h1 h2
    exact absurd (h2.1.symm.trans h1.1) (fun e => hz (by simp [e]))
  | x :: xs, [], a, h1, h2, hz, _ => by
    simp only [Links] at h1 h2
    exact absurd (h1.1.symm.trans h2.1) (fun e => hz (by simp [e]))
  | x :: xs, y :: ys, a, h1, h2, hz1, hz2 => by
    simp only [Links] at h1 h2
    have hxy : x = y := h1.1.symm.trans h2.1
    subst hxy
    rw [Links_unique xs ys x h1.2.2 h2.2.2 (fun e => hz1 (List.mem_cons_of_mem _ e))
      (fun e => hz2 (List.mem_cons_of_mem _ e))]

theorem IsList_unique {m : Mem} {h : Nat} {xs ys : List Nat} (h1 : IsList m h xs)
    (h2 : IsList m h ys) : xs = ys :=
  Links_unique xs ys h h1.1 h2.1 (List.nodup_cons.1 h1.2).1 (List.nodup_cons.1 h2.2).1

theorem strncmp_self : ∀ (k : List Nat) (n : Nat), strncmp k k n = 0
  | _, 0 => by simp [strncmp]
  | k, n + 1 => by
    simp only [strncmp, ne_eq, not_true_eq_false, if_false]
    split
    · rfl
    · exact strncmp_self k.tail n

theorem strncmp_symm : ∀ (a b : List Nat) (n : Nat), strncmp a b n = 0 ↔ strncmp b a n = 0
  | _, _, 0 => by simp [strncmp]
  | a, b, n + 1 => by
    simp only [strncmp]
    by_cases h : a.headD 0 = b.headD 0
    · simp only [h, ne_eq, not_true_eq_false, if_false]
      split
      · rfl
      · exact strncmp_symm a.tail b.tail n
    · have h2 : ¬ b.headD 0 = a.headD 0 := fun e => h e.symm
      simp only [ne_eq, h, h2, not_false_eq_true, if_true]
      omega

theorem octo_min_comm (x y : Nat) : octo_min x y = octo_min y x := by
  unfold octo_min
  split_ifs <;> omega

theorem keymatch_self (s : Heap) (r : Nat) : keymatch s (s.key r) (s.keylen r) r = true := by
  simp [keymatch, strncmp_self]

theorem keymatch_symm (s : Heap) (a b : Nat) :
    keymatch s (s.key a) (s.keylen a) b = keymatch s (s.key b) (s.keylen b) a := by
  simp only [keymatch]
  rw [octo_min_comm (s.keylen b) (s.keylen a)]
  exact decide_eq_decide.2 (strncmp_symm _ _ _)

theorem mask_of_pow2 {k : Nat} (hk : k < 32) : (2 ^ k + 4294967295) % 4294967296 = 2 ^ k - 1 := by
  have h1 : 0 < 2 ^ k := Nat.pow_pos (by norm_num)
  have h2 : 2 ^ k ≤ 2 ^ 31 := Nat.pow_le_pow_right (by norm_num) (by omega)
  norm_num at h2
  omega

theorem octo_hash_nbin_eq_mod {k : Nat} (hk : k < 32) (keyhash : Nat) :
    octo_hash_nbin (2 ^ k) keyhash = keyhash % 2 ^ k := by
  unfold octo_hash_nbin
  rw [mask_of_pow2 hk, Nat.and_pow_two_sub_one_eq_mod]

theorem octo_hash_nbin_lt {t : octo_hash} (hp : ∃ k, k < 32 ∧ t.n_hash_bins = 2 ^ k)
    (keyhash : Nat) : octo_hash_nbin t.n_hash_bins keyhash < t.n_hash_bins := by
  obtain ⟨k, hk, hn⟩ := hp
  rw [hn, octo_hash_nbin_eq_mod hk]
  exact Nat.mod_lt _ (Nat.pow_pos (by norm_num))

theorem octo_hash_bin_eq {t : octo_hash} (hp : ∃ k, k < 32 ∧ t.n_hash_bins = 2 ^ k)
    (keyhash : Nat) :
    octo_hash_bin t keyhash = some (t.hash_bins + octo_hash_nbin t.n_hash_bins keyhash) := by
  simp [octo_hash_bin, octo_hash_nbin_lt hp keyhash]

section
variable {t : octo_hash} {s : Heap} {c : Nat → List Nat}

theorem TableRep.entryBin_lt (hr : TableRep t s c) (x : Nat) :
    entryBin t s x < t.n_hash_bins :=
  octo_hash_nbin_lt hr.pow2 _

theorem TableRep.links (hr : TableRep t s c) {i : Nat} (hi : i < t.n_hash_bins) :
    Links s.node (t.hash_bins + i) (c i) (t.hash_bins + i) ∧ t.hash_bins + i ∉ c i :=
  ⟨(hr.lists i hi).1, (List.nodup_cons.1 (hr.lists i hi).2).1⟩

theorem octo_hash_has_eq (hr : TableRep t s c) (key : List Nat) (keylen fuel : Nat)
    (hf : (c (octo_hash_nbin t.n_hash_bins (octo_hash_keyhash t key keylen))).length < fuel) :
    octo_hash_has t s key keylen fuel =
      some ((c (octo_hash_nbin t.n_hash_bins (octo_hash_keyhash t key keylen))).any
        (keymatch s key keylen)) := by
  have hi := octo_hash_nbin_lt hr.pow2 (octo_hash_keyhash t key keylen)
  obtain ⟨hl, hz⟩ := hr.links hi
  simp only [octo_hash_has, octo_hash_bin_has, octo_hash_bin_eq hr.pow2, Option.bind_eq_bind,
    Option.some_bind]
  exact octo_hash_bin_has_from_Links key keylen _ _ fuel hl hz hf

theorem octo_hash_get_eq (hr : TableRep t s c) (key : List Nat) (keylen fuel : Nat)
    (hf : (c (octo_hash_nbin t.n_hash_bins (octo_hash_keyhash t key keylen))).length < fuel) :
    octo_hash_get t s key keylen fuel =
      some ((c (octo_hash_nbin t.n_hash_bins (octo_hash_keyhash t key keylen))).find?
        (keymatch s key keylen)) := by
  have hi := octo_hash_nbin_lt hr.pow2 (octo_hash_keyhash t key keylen)
  obtain ⟨hl, hz⟩ := hr.links hi
  simp only [octo_hash_get, octo_hash_bin_eq hr.pow2, Option.bind_eq_bind, Option.some_bind]
  exact octo_hash_get_from_Links key keylen _ _ fuel hl hz hf

theorem octo_hash_pop_eq (hr : TableRep t s c) (key : List Nat) (keylen fuel : Nat)
    (hf : (c (octo_hash_nbin t.n_hash_bins (octo_hash_keyhash t key keylen))).length < fuel) :
    octo_hash_pop t s key keylen fuel =
      some (popOutcome s
        ((c (octo_hash_nbin t.n_hash_bins (octo_hash_keyhash t key keylen))).find?
          (keymatch s key keylen))) := by
  have hi := octo_hash_nbin_lt hr.pow2 (octo_hash_keyhash t key keylen)
  obtain ⟨hl, hz⟩ := hr.links hi
  simp only [octo_hash_pop, octo_hash_bin_eq hr.pow2, Option.bind_eq_bind, Option.some_bind]
  exact octo_hash_pop_from_Links key keylen _ _ fuel hl hz hf

theorem octo_hash_put_eq (hr : TableRep t s c) (e fuel : Nat)
    (hf : (c (entryBin t s e)).length < fuel) :
    octo_hash_put t s e fuel = some (putOutcome t s c e) := by
  have hi := hr.entryBin_lt e
  have hlist := hr.lists _ hi
  obtain ⟨hl, hz⟩ := hr.links hi
  have hhas := octo_hash_bin_has_from_Links (s.key e) (s.keylen e) _ _ fuel hl hz hf
  unfold entryBin at hi hlist hl hz hhas hf
  simp only [octo_hash_put, octo_hash_bin_has, octo_hash_bin_eq hr.pow2, Option.bind_eq_bind,
    Option.some_bind, putOutcome, entryBin]
  by_cases hemp : octo_list_empty s.node
      (t.hash_bins + octo_hash_nbin t.n_hash_bins (octo_hash_keyhash t (s.key e) (s.keylen e)))
      = true
  · have hnil := (IsList_empty_iff hlist).1 hemp
    simp [hemp, hnil]
  · have hne : ¬ c (octo_hash_nbin t.n_hash_bins (octo_hash_keyhash t (s.key e) (s.keylen e)))
        = [] := fun h => hemp ((IsList_empty_iff hlist).2 h)
    simp only [hemp, hhas]
    cases h : (c (octo_hash_nbin t.n_hash_bins
      (octo_hash_keyhash t (s.key e) (s.keylen e)))).any (keymatch s (s.key e) (s.keylen e)) <;>
      simp [h]

end

section
variable {t : octo_hash} {s : Heap} {c : Nat → List Nat}

theorem TableRep.put (hr : TableRep t s c) {e i : Nat} (hi : i < t.n_hash_bins)
    (hd : Detached t c e) :
    TableRep t { s with node := octo_list_add s.node (t.hash_bins + i) e }
      (Function.update c i (e :: c i)) := by
  obtain ⟨hlk, hzi⟩ := hr.links hi
  have hnext := Links_next_mem _ _ _ hlk
  refine ⟨hr.pow2, ?_, ?_, ?_, ?_⟩
  · intro j hj
    by_cases hji : j = i
    · subst hji
      simp only [Function.update_same]
      refine IsList_add (hr.lists j hj) ?_
      simp only [List.mem_cons, not_or]
      exact ⟨hd.2 j hj, hd.1 j⟩
    · simp only [Function.update_noteq hji]
      refine IsList_congr (fun a ha => ?_) (hr.lists j hj)
      have hae : a ≠ e := by
        rintro rfl
        rcases List.mem_cons.1 ha with ha | ha
        · exact hd.2 j hj ha
        · exact hd.1 j ha
      have hah : a ≠ t.hash_bins + i := by
        rintro rfl
        rcases List.mem_cons.1 ha with ha | ha
        · exact hji (by omega)
        · exact hr.notbin j _ ha i hi rfl
      have han : a ≠ (s.node (t.hash_bins + i)).next := by
        intro e1
        rw [← e1] at hnext
        rcases List.mem_append.1 hnext with hn | hn
        · rcases List.mem_cons.1 ha with ha | ha
          · exact hr.notbin i _ hn j hj ha
          · exact hji (hr.disjoint j i a ha hn)
        · exact hah (List.mem_singleton.1 hn)
      exact octo_list_add_other _ _ _ _ hae hah han
  · intro j hj
    have hji : j ≠ i := by omega
    simp only [Function.update_noteq hji]
    exact hr.outside j hj
  · intro j x hx k hk
    by_cases hji : j = i
    · subst hji
      simp only [Function.update_same, List.mem_cons] at hx
      rcases hx with rfl | hx
      · exact hd.2 k hk
      · exact hr.notbin j x hx k hk
    · simp only [Function.update_noteq hji] at hx
      exact hr.notbin j x hx k hk
  · intro j k x hxj hxk
    by_cases hji : j = i <;> by_cases hki : k = i
    · rw [hji, hki]
    · subst hji
      simp only [Function.update_same, Function.update_noteq hki, List.mem_cons] at hxj hxk
      rcases hxj with rfl | hxj
      · exact absurd hxk (hd.1 k)
      · exact hr.disjoint j k x hxj hxk
    · subst hki
      simp only [Function.update_same, Function.update_noteq hji, List.mem_cons] at hxj hxk
      rcases hxk with rfl | hxk
      · exact absurd hxj (hd.1 j)
      · exact hr.disjoint j k x hxj hxk
    · simp only [Function.update_noteq hji, Function.update_noteq hki] at hxj hxk
      exact hr.disjoint j k x hxj hxk

theorem TableRep.pop (hr : TableRep t s c) {i x : Nat} {pre post : List Nat}
    (hi : i < t.n_hash_bins) (hc : c i = pre ++ x :: post) :
    TableRep t { s with node := octo_list_remove s.node x }
      (Function.update c i (pre ++ post)) := by
  have hli := hr.lists i hi
  rw [hc] at hli
  have hsplit := (Links_append pre _ x post _).1 hli.1
  have hp := Links_prev_mem pre _ x hsplit.1
  have hn := Links_next_mem x post _ hsplit.2
  have hxi : x ∈ c i := by rw [hc]; simp
  have hsub : ∀ y, y ∈ pre ++ post → y ∈ c i := by
    intro y hy
    rw [hc]
    rcases List.mem_append.1 hy with h | h
    · exact List.mem_append_left _ h
    · exact List.mem_append_right _ (List.mem_cons_of_mem _ h)
  refine ⟨hr.pow2, ?_, ?_, ?_, ?_⟩
  · intro j hj
    by_cases hji : j = i
    · subst hji
      simp only [Function.update_same]
      exact IsList_remove hli
    · simp only [Function.update_noteq hji]
      refine IsList_congr (fun a ha => ?_) (hr.lists j hj)
      have hfoot : ∀ b, b ∈ (t.hash_bins + i) :: c i → a ≠ b := by
        rintro b hb rfl
        rcases List.mem_cons.1 hb with hb | hb <;> rcases List.mem_cons.1 ha with ha | ha
        · exact hji (by omega)
        · exact hr.notbin j _ ha i hi hb
        · exact hr.notbin i _ hb j hj ha
        · exact hji (hr.disjoint j i a ha hb)
      refine octo_list_remove_other _ _ _ (hfoot x (List.mem_cons_of_mem _ hxi)) ?_ ?_
      · refine hfoot _ ?_
        rcases List.mem_cons.1 hp with h | h
        · simp [h]
        · exact List.mem_cons_of_mem _ (hsub _ (List.mem_append_left _ h))
      · refine hfoot _ ?_
        rcases List.mem_append.1 hn with h | h
        · exact List.mem_cons_of_mem _ (hsub _ (List.mem_append_right _ h))
        · simp [List.mem_singleton.1 h]
  · intro j hj
    have hji : j ≠ i := by omega
    simp only [Function.update_noteq hji]
    exact hr.outside j hj
  · intro j y hy k hk
    by_cases hji : j = i
    · subst hji
      simp only [Function.update_same] at hy
      exact hr.notbin j y (hsub y hy) k hk
    · simp only [Function.update_noteq hji] at hy
      exact hr.notbin j y hy k hk
  · intro j k y hyj hyk
    have h1 : y ∈ c j := by
      by_cases hji : j = i
      · subst hji
        simp only [Function.update_same] at hyj
        exact hsub y hyj
      · simpa only [Function.update_noteq hji] using hyj
    have h2 : y ∈ c k := by
      by_cases hki : k = i
      · subst hki
        simp only [Function.update_same] at hyk
        exact hsub y hyk
      · simpa only [Function.update_noteq hki] using hyk
    exact hr.disjoint j k y h1 h2

theorem octo_hash_size_upto_eq (hr : TableRep t s c) (fuel : Nat)
    (hf : ∀ i, (c i).length < fuel) : ∀ k, k ≤ t.n_hash_bins →
    octo_hash_size_upto t s fuel k = some (∑ i in Finset.range k, (c i).length)
  | 0, _ => by simp [octo_hash_size_upto]
  | k + 1, hk => by
    have ih := octo_hash_size_upto_eq hr fuel hf k (by omega)
    obtain ⟨hl, hz⟩ := hr.links (show k < t.n_hash_bins by omega)
    have hsz := octo_list_size_from_Links (c k) _ fuel hl hz (hf k)
    simp only [octo_hash_size_upto, ih, octo_list_size, hsz, Option.bind_eq_bind,
      Option.some_bind, Finset.sum_range_succ]
    rfl

theorem octo_hash_size_eq (hr : TableRep t s c) (fuel : Nat) (hf : ∀ i, (c i).length < fuel) :
    octo_hash_size t s fuel = some (∑ i in Finset.range t.n_hash_bins, (c i).length) :=
  octo_hash_size_upto_eq hr fuel hf _ (Nat.le_refl _)

end

theorem octo_hash_init_bins_apply (bins : Nat) (m : Mem) : ∀ (n a : Nat),
    octo_hash_init_bins bins n m a =
      if bins ≤ a ∧ a < bins + n then ⟨a, a⟩ else m a
  | 0, a => by
    have : ¬ (bins ≤ a ∧ a < bins) := by omega
    simp [octo_hash_init_bins, this]
  | n + 1, a => by
    simp only [octo_hash_init_bins, octo_list_init_apply, octo_hash_init_bins_apply bins m n a]
    by_cases h1 : a = bins + n
    · have : bins ≤ a ∧ a < bins + (n + 1) := by omega
      simp [h1]
    · by_cases h2 : bins ≤ a ∧ a < bins + n
      · have : bins ≤ a ∧ a < bins + (n + 1) := by omega
        simp [h1, h2, this]
      · have : ¬ (bins ≤ a ∧ a < bins + (n + 1)) := by omega
        simp [h1, h2, this]

theorem shift_one_mod {p : Nat} (hp : p < 32) : (1 <<< p) % 4294967296 = 2 ^ p := by
  rw [Nat.one_shiftLeft]
  have h2 : 2 ^ p ≤ 2 ^ 31 := Nat.pow_le_pow_right (by norm_num) (by omega)
  norm_num at h2
  exact Nat.mod_eq_of_lt (by omega)

theorem power_of_two_pow {p : Nat} (hp : p < 32) : power_of_two (2 ^ p) = true := by
  have h1 : 0 < 2 ^ p := Nat.pow_pos (by norm_num)
  simp only [power_of_two, mask_of_pow2 hp, Nat.and_pow_two_sub_one_eq_mod, Nat.mod_self,
    beq_self_eq_true, Bool.and_true, bne_iff_ne, ne_eq]
  omega

theorem octo_hash_init_eq (s : Heap) (bins : Nat) (fn : List Nat → Nat → Nat → Nat)
    (seed : Nat) {p : Nat} (hp : p < 32) :
    octo_hash_init s bins fn seed p =
      some (⟨fn, seed, 2 ^ p, bins⟩,
        { s with node := octo_hash_init_bins bins (2 ^ p) s.node }) := by
  have h1 : 0 < 2 ^ p := Nat.pow_pos (by norm_num)
  have h3 : (2 : Nat) ^ p ≠ 0 := by omega
  simp [octo_hash_init, hp, shift_one_mod hp, power_of_two_pow hp, h3]

theorem octo_hash_init_rep (s : Heap) (bins : Nat) (fn : List Nat → Nat → Nat → Nat)
    (seed : Nat) {p : Nat} (hp : p < 32) :
    TableRep ⟨fn, seed, 2 ^ p, bins⟩
      { s with node := octo_hash_init_bins bins (2 ^ p) s.node } (fun _ => []) := by
  refine ⟨⟨p, hp, rfl⟩, ?_, fun _ _ => rfl, ?_, ?_⟩
  · intro i hi
    have hi2 : i < 2 ^ p := hi
    rw [IsList_nil_iff]
    show octo_hash_init_bins bins (2 ^ p) s.node (bins + i) = _
    rw [octo_hash_init_bins_apply]
    have : bins ≤ bins + i ∧ bins + i < bins + 2 ^ p := by omega
    simp [this]
  · intro i x hx
    simp at hx
  · intro i j x hx
    simp at hx

/-! ### Results that hold whenever a loop returns -/

theorem octo_hash_bin_has_from_some {s : Heap} {z : Nat} (key : List Nat) (keylen : Nat) :
    ∀ (xs : List Nat) (a fuel : Nat) (v : Bool),
    Links s.node a xs z → z ∉ xs →
    octo_hash_bin_has_from s z key keylen fuel (s.node a).next = some v →
    v = xs.any (keymatch s key keylen)
  | _, _, 0, _, _, _, h => by simp [octo_hash_bin_has_from] at h
  | [], a, f + 1, v, hl, _, h => by
    simp only [Links] at hl
    simp [octo_hash_bin_has_from, hl.1] at h
    simp [← h]
  | x :: xs, a, f + 1, v, hl, hz, h => by
    simp only [Links] at hl
    have hxz : x ≠ z := fun e => hz (by simp [e])
    by_cases hk : strncmp key (s.key x) (octo_min (s.keylen x) keylen) = 0
    · simp [octo_hash_bin_has_from, hl.1, hxz, hk] at h
      simp [← h, keymatch, hk]
    · simp only [octo_hash_bin_has_from, hl.1, hxz, hk, if_false] at h
      have ih := octo_hash_bin_has_from_some key keylen xs x f v hl.2.2
        (fun e => hz (List.mem_cons_of_mem _ e)) h
      simp [ih, keymatch, hk]

theorem octo_hash_pop_from_some {s : Heap} {z : Nat} (key : List Nat) (keylen : Nat) :
    ∀ (xs : List Nat) (a fuel : Nat) (v : Heap × Option Nat),
    Links s.node a xs z → z ∉ xs →
    octo_hash_pop_from s z key keylen fuel (s.node a).next = some v →
    v = popOutcome s (xs.find? (keymatch s key keylen))
  | _, _, 0, _, _, _, h => by simp [octo_hash_pop_from] at h
  | [], a, f + 1, v, hl, _, h => by
    simp only [Links] at hl
    simp [octo_hash_pop_from, hl.1] at h
    simp [← h, popOutcome]
  | x :: xs, a, f + 1, v, hl, hz, h => by
    simp only [Links] at hl
    have hxz : x ≠ z := fun e => hz (by simp [e])
    by_cases hk : strncmp key (s.key x) (octo_min (s.keylen x) keylen) = 0
    · simp [octo_hash_pop_from, hl.1, hxz, hk] at h
      simp [← h, keymatch, hk, popOutcome]
    · simp only [octo_hash_pop_from, hl.1, hxz, hk, if_false] at h
      have ih := octo_hash_pop_from_some key keylen xs x f v hl.2.2
        (fun e => hz (List.mem_cons_of_mem _ e)) h
      simp [ih, keymatch, hk]

theorem octo_hash_get_from_some {s : Heap} {z : Nat} (key : List Nat) (keylen : Nat) :
    ∀ (xs : List Nat) (a fuel : Nat) (v : Option Nat),
    Links s.node a xs z → z ∉ xs →
    octo_hash_get_from s z key keylen fuel (s.node a).next = some v →
    v = xs.find? (keymatch s key keylen)
  | _, _, 0, _, _, _, h => by simp [octo_hash_get_from] at h
  | [], a, f + 1, v, hl, _, h => by
    simp only [Links] at hl
    simp [octo_hash_get_from, hl.1] at h
    simp [← h]
  | x :: xs, a, f + 1, v, hl, hz, h => by
    simp only [Links] at hl
    have hxz : x ≠ z := fun e => hz (by simp [e])
    by_cases hk : strncmp key (s.key x) (octo_min (s.keylen x) keylen) = 0
    · simp [octo_hash_get_from, hl.1, hxz, hk] at h
      simp [← h, keymatch, hk]
    · simp only [octo_hash_get_from, hl.1, hxz, hk, if_false] at h
      have ih := octo_hash_get_from_some key keylen xs x f v hl.2.2
        (fun e => hz (List.mem_cons_of_mem _ e)) h
      simp [ih, keymatch, hk]

section
variable {t : octo_hash} {s : Heap} {c : Nat → List Nat}

theorem octo_hash_put_some (hr : TableRep t s c) {e fuel : Nat} {r : Heap × Bool}
    (h : octo_hash_put t s e fuel = some r) : r = putOutcome t s c e := by
  have hi := hr.entryBin_lt e
  have hlist := hr.lists _ hi
  obtain ⟨hl, hz⟩ := hr.links hi
  unfold entryBin at hi hlist hl hz
  simp only [octo_hash_put, octo_hash_bin_has, octo_hash_bin_eq hr.pow2, Option.bind_eq_bind,
    Option.some_bind] at h
  simp only [putOutcome, entryBin]
  by_cases hemp : octo_list_empty s.node
      (t.hash_bins + octo_hash_nbin t.n_hash_bins (octo_hash_keyhash t (s.key e) (s.keylen e)))
      = true
  · have hnil := (IsList_empty_iff hlist).1 hemp
    simp [hemp] at h
    simp [hnil, ← h]
  · simp only [hemp] at h
    cases hv : octo_hash_bin_has_from s
        (t.hash_bins + octo_hash_nbin t.n_hash_bins (octo_hash_keyhash t (s.key e) (s.keylen e)))
        (s.key e) (s.keylen e) fuel
        (s.node (t.hash_bins + octo_hash_nbin t.n_hash_bins
          (octo_hash_keyhash t (s.key e) (s.keylen e)))).next with
    | none => simp [hv] at h
    | some v =>
      have hany := octo_hash_bin_has_from_some (s.key e) (s.keylen e) _ _ fuel v hl hz hv
      rw [hv] at h
      rw [← hany]
      cases v <;> simp at h <;> simp [← h]

theorem octo_hash_pop_some (hr : TableRep t s c) {key : List Nat} {keylen fuel : Nat}
    {r : Heap × Option Nat} (h : octo_hash_pop t s key keylen fuel = some r) :
    r = popOutcome s
      ((c (octo_hash_nbin t.n_hash_bins (octo_hash_keyhash t key keylen))).find?
        (keymatch s key keylen)) := by
  have hi := octo_hash_nbin_lt hr.pow2 (octo_hash_keyhash t key keylen)
  obtain ⟨hl, hz⟩ := hr.links hi
  simp only [octo_hash_pop, octo_hash_bin_eq hr.pow2, Option.bind_eq_bind,
    Option.some_bind] at h
  exact octo_hash_pop_from_some key keylen _ _ fuel r hl hz h

theorem TableRep.unique {c' : Nat → List Nat} (hr : TableRep t s c) (hr' : TableRep t s c') :
    c = c' := by
  funext i
  by_cases hi : i < t.n_hash_bins
  · exact IsList_unique (hr.lists i hi) (hr'.lists i hi)
  · rw [hr.outside i (by omega), hr'.outside i (by omega)]

/-- Memory that agrees with `s` on the bucket heads and the resident entries
represents the same chains. -/
theorem TableRep.congr {s' : Heap} (hr : TableRep t s c)
    (hm : ∀ i, i < t.n_hash_bins → ∀ a, a ∈ (t.hash_bins + i) :: c i → s'.node a = s.node a) :
    TableRep t s' c :=
  ⟨hr.pow2, fun i hi => IsList_congr (hm i hi) (hr.lists i hi), hr.outside, hr.notbin,
    hr.disjoint⟩

theorem Detached.ne_of_mem {e : Nat} (hd : Detached t c e) {i a : Nat}
    (hi : i < t.n_hash_bins) (ha : a ∈ (t.hash_bins + i) :: c i) : a ≠ e := by
  rintro rfl
  rcases List.mem_cons.1 ha with ha | ha
  · exact hd.2 i hi ha
  · exact hd.1 i ha

end

theorem Links_head_prev {m : Mem} {a z : Nat} {xs : List Nat} (hl : Links m a xs z) :
    (m (m a).next).prev = a := by
  cases xs with
  | nil => simp only [Links] at hl; rw [hl.1]; exact hl.2
  | cons y ys => simp only [Links] at hl; rw [hl.1]; exact hl.2.1

/-- Adding after `h` and removing again restores every node but the added one. -/
theorem octo_list_remove_add {m : Mem} {h x : Nat} (hxh : x ≠ h) (hxn : x ≠ (m h).next)
    (hback : (m (m h).next).prev = h) (a : Nat) (ha : a ≠ x) :
    octo_list_remove (octo_list_add m h x) x a = m a := by
  have hp : (octo_list_add m h x x).prev = h := by
    simp [octo_list_add_prev, hxn]
  have hn : (octo_list_add m h x x).next = (m h).next := by
    simp [octo_list_add_next, hxh]
  have e1 := octo_list_remove_next (octo_list_add m h x) x a
  have e2 := octo_list_remove_prev (octo_list_add m h x) x a
  rw [hp, hn] at e1 e2
  simp only [ha, if_false, octo_list_add_next, octo_list_add_prev] at e1 e2
  have e3 : (octo_list_remove (octo_list_add m h x) x a).next = (m a).next := by
    rw [e1]
    by_cases hah : a = h
    · rw [if_pos hah, hah]
    · rw [if_neg hah, if_neg hah]
  have e4 : (octo_list_remove (octo_list_add m h x) x a).prev = (m a).prev := by
    rw [e2]
    by_cases han : a = (m h).next
    · rw [if_pos han, han, hback]
    · rw [if_neg han, if_neg han]
  cases hv : octo_list_remove (octo_list_add m h x) x a with
  | mk n p =>
    cases hw : m a with
    | mk n2 p2 =>
      rw [hv, hw] at e3 e4
      simp only at e3 e4
      rw [e3, e4]

/-! ### The invariant of reachable states -/

section
variable {t : octo_hash} {s : Heap} {c : Nat → List Nat}

theorem TableInv.of_init {s0 : Heap} {bins : Nat} {fn : List Nat → Nat → Nat → Nat}
    {seed p : Nat} (h : octo_hash_init s0 bins fn seed p = some (t, s)) : TableInv t s := by
  by_cases hp : p < 32
  · rw [octo_hash_init_eq s0 bins fn seed hp] at h
    simp only [Option.some.injEq, Prod.mk.injEq] at h
    obtain ⟨rfl, rfl⟩ := h
    exact ⟨fun _ => [], octo_hash_init_rep s0 bins fn seed hp, fun i x hx => by simp at hx,
      fun i => List.Pairwise.nil⟩
  · simp [octo_hash_init, hp] at h

theorem TableInv.put_outcome (hr : TableRep t s c) (hp : Placed t s c) (hn : NoMatch s c)
    {e : Nat} (hd : Detached t c e) : TableInv t (putOutcome t s c e).1 := by
  unfold putOutcome
  by_cases hany : (c (entryBin t s e)).any (keymatch s (s.key e) (s.keylen e)) = true
  · rw [if_pos hany]
    exact ⟨c, hr, hp, hn⟩
  · rw [if_neg hany]
    have hi := hr.entryBin_lt e
    refine ⟨_, TableRep.put hr hi hd, ?_, ?_⟩
    · intro j x hx
      show entryBin t s x = j
      by_cases hji : j = entryBin t s e
      · subst hji
        simp only [Function.update_same, List.mem_cons] at hx
        rcases hx with rfl | hx
        · rfl
        · exact hp _ x hx
      · simp only [Function.update_noteq hji] at hx
        exact hp j x hx
    · intro j
      by_cases hji : j = entryBin t s e
      · subst hji
        simp only [Function.update_same, List.pairwise_cons]
        refine ⟨fun b hb => ?_, hn _⟩
        have := List.any_eq_false.1 (by simpa using hany) b hb
        simpa using this
      · simp only [Function.update_noteq hji]
        exact hn j

theorem TableInv.set_key (hr : TableRep t s c) (hp : Placed t s c) (hn : NoMatch s c)
    {e : Nat} (hd : Detached t c e) (key : List Nat) (keylen : Nat) :
    TableRep t (octo_hash_set_key s e key keylen) c ∧
    Placed t (octo_hash_set_key s e key keylen) c ∧
    NoMatch (octo_hash_set_key s e key keylen) c := by
  have hk : ∀ i x, x ∈ c i → (octo_hash_set_key s e key keylen).key x = s.key x ∧
      (octo_hash_set_key s e key keylen).keylen x = s.keylen x := by
    intro i x hx
    have hxe : x ≠ e := fun h => hd.1 i (h ▸ hx)
    simp [octo_hash_set_key, hxe]
  refine ⟨hr.congr (fun _ _ _ _ => rfl), ?_, ?_⟩
  · intro i x hx
    have := hp i x hx
    unfold entryBin at this ⊢
    rw [(hk i x hx).1, (hk i x hx).2]
    exact this
  · intro i
    refine List.Pairwise.imp_of_mem ?_ (hn i)
    intro a b ha hb hab
    unfold keymatch at hab ⊢
    rw [(hk i a ha).1, (hk i a ha).2, (hk i b hb).1, (hk i b hb).2]
    exact hab

theorem TableInv.pop_outcome (hr : TableRep t s c) (hp : Placed t s c) (hn : NoMatch s c)
    (key : List Nat) (keylen : Nat) :
    TableInv t (popOutcome s
      ((c (octo_hash_nbin t.n_hash_bins (octo_hash_keyhash t key keylen))).find?
        (keymatch s key keylen))).1 := by
  have hi := octo_hash_nbin_lt hr.pow2 (octo_hash_keyhash t key keylen)
  cases hfind : (c (octo_hash_nbin t.n_hash_bins (octo_hash_keyhash t key keylen))).find?
      (keymatch s key keylen) with
  | none => exact ⟨c, hr, hp, hn⟩
  | some x =>
    obtain ⟨_, pre, post, hc, _⟩ := List.find?_eq_some.1 hfind
    have hsub : (pre ++ post).Sublist
        (c (octo_hash_nbin t.n_hash_bins (octo_hash_keyhash t key keylen))) := by
      rw [hc]
      exact List.Sublist.append (List.Sublist.refl _) (List.sublist_cons_self _ _)
    refine ⟨_, TableRep.pop hr hi hc, ?_, ?_⟩
    · intro j y hy
      show entryBin t s y = j
      by_cases hji : j = octo_hash_nbin t.n_hash_bins (octo_hash_keyhash t key keylen)
      · subst hji
        simp only [Function.update_same] at hy
        exact hp _ y (hsub.subset hy)
      · simp only [Function.update_noteq hji] at hy
        exact hp j y hy
    · intro j
      by_cases hji : j = octo_hash_nbin t.n_hash_bins (octo_hash_keyhash t key keylen)
      · subst hji
        simp only [Function.update_same]
        exact List.Pairwise.sublist hsub (hn _)
      · simp only [Function.update_noteq hji]
        exact hn j

theorem Reachable.inv (h : Reachable t s) : TableInv t s := by
  induction h with
  | init s0 s p hinit => exact TableInv.of_init hinit
  | put s s' c e fuel b _ hr hd hput ih =>
    obtain ⟨c0, hr0, hp0, hn0⟩ := ih
    obtain rfl := hr0.unique hr
    have := octo_hash_put_some hr hput
    have h2 := TableInv.put_outcome hr hp0 hn0 hd
    rw [← this] at h2
    exact h2
  | add s s' c e key keylen fuel b _ hr hd hadd ih =>
    obtain ⟨c0, hr0, hp0, hn0⟩ := ih
    obtain rfl := hr0.unique hr
    obtain ⟨hr1, hp1, hn1⟩ := TableInv.set_key hr hp0 hn0 hd key keylen
    have := octo_hash_put_some hr1 hadd
    have h2 := TableInv.put_outcome hr1 hp1 hn1 hd
    rw [← this] at h2
    exact h2
  | pop s s' key keylen fuel r _ hpop ih =>
    obtain ⟨c0, hr0, hp0, hn0⟩ := ih
    have := octo_hash_pop_some hr0 hpop
    have h2 := TableInv.pop_outcome hr0 hp0 hn0 key keylen
    rw [← this] at h2
    exact h2

/-- In a chain without two matching entries the lookup of a resident entry's own
key finds that entry. -/
theorem find_own_key (hn : NoMatch s c) {i e : Nat} (he : e ∈ c i) :
    (c i).find? (keymatch s (s.key e) (s.keylen e)) = some e := by
  obtain ⟨pre, post, hc⟩ := List.append_of_mem he
  have hpw := hn i
  rw [hc] at hpw ⊢
  have hpre := (List.pairwise_append.1 hpw).2.2
  rw [List.find?_eq_some]
  refine ⟨keymatch_self s e, pre, post, rfl, fun a ha => ?_⟩
  have := hpre a ha e (by simp)
  rw [keymatch_symm] at this
  simp [this]

end

/-! ### Counting and lookup in reachable states -/

theorem sum_update_length (c : Nat → List Nat) {n i : Nat} (hi : i < n) (l : List Nat) :
    ∑ j in Finset.range n, (Function.update c i l j).length + (c i).length =
      ∑ j in Finset.range n, (c j).length + l.length := by
  have h1 : ∀ j, (Function.update c i l j).length =
      Function.update (fun k => (c k).length) i l.length j :=
    fun j => Function.apply_update (fun _ x => List.length x) c i l j
  simp only [h1]
  rw [Finset.sum_update_of_mem (Finset.mem_range.2 hi), Finset.sdiff_singleton_eq_erase]
  have h2 := Finset.add_sum_erase (Finset.range n) (fun k => (c k).length)
    (Finset.mem_range.2 hi)
  simp only at h2
  omega

section
variable {t : octo_hash} {s : Heap} {c : Nat → List Nat}

/-- The resident entries of the first `k` buckets, each listed once. -/
theorem TableRep.residents_upto (hr : TableRep t s c) : ∀ k, k ≤ t.n_hash_bins →
    ∃ l : List Nat, l.Nodup ∧ (∀ x, x ∈ l ↔ ∃ i, i < k ∧ x ∈ c i) ∧
      l.length = ∑ i in Finset.range k, (c i).length
  | 0, _ => ⟨[], List.nodup_nil, fun x => by simp, by simp⟩
  | k + 1, hk => by
    obtain ⟨l, hnd, hmem, hlen⟩ := TableRep.residents_upto hr k (by omega)
    have hck : (c k).Nodup := (List.nodup_cons.1 (hr.lists k (by omega)).2).2
    refine ⟨l ++ c k, ?_, ?_, ?_⟩
    · refine List.Nodup.append hnd hck ?_
      intro x hx hxk
      obtain ⟨i, hik, hxi⟩ := (hmem x).1 hx
      have := hr.disjoint i k x hxi hxk
      omega
    · intro x
      rw [List.mem_append, hmem]
      constructor
      · rintro (⟨i, hi, hx⟩ | hx)
        · exact ⟨i, by omega, hx⟩
        · exact ⟨k, by omega, hx⟩
      · rintro ⟨i, hi, hx⟩
        by_cases hik : i = k
        · exact Or.inr (hik ▸ hx)
        · exact Or.inl ⟨i, by omega, hx⟩
    · rw [List.length_append, hlen, Finset.sum_range_succ]

theorem TableRep.residents (hr : TableRep t s c) :
    ∃ l : List Nat, l.Nodup ∧ (∀ x, x ∈ l ↔ ∃ i, x ∈ c i) ∧
      l.length = ∑ i in Finset.range t.n_hash_bins, (c i).length := by
  obtain ⟨l, hnd, hmem, hlen⟩ := hr.residents_upto _ (Nat.le_refl _)
  refine ⟨l, hnd, fun x => ?_, hlen⟩
  rw [hmem]
  constructor
  · rintro ⟨i, _, hx⟩
    exact ⟨i, hx⟩
  · rintro ⟨i, hx⟩
    by_cases hi : i < t.n_hash_bins
    · exact ⟨i, hi, hx⟩
    · rw [hr.outside i (by omega)] at hx
      simp at hx

theorem octo_hash_get_own_key (hreach : Reachable t s) (hr : TableRep t s c) {e i : Nat}
    (he : e ∈ c i) {fuel : Nat} (hf : (c i).length < fuel) :
    octo_hash_get t s (s.key e) (s.keylen e) fuel = some (some e) := by
  obtain ⟨c0, hr0, hp0, hn0⟩ := hreach.inv
  obtain rfl := hr0.unique hr
  have hbin : octo_hash_nbin t.n_hash_bins (octo_hash_keyhash t (s.key e) (s.keylen e)) = i :=
    hp0 i e he
  rw [octo_hash_get_eq hr _ _ fuel (by rw [hbin]; exact hf), hbin, find_own_key hn0 he]

end

/-! ### More on lists: heads, tails and pushes -/

theorem Links_headD {m : Mem} {a z : Nat} {xs : List Nat} (hl : Links m a xs z) :
    (m a).next = xs.headD z := by
  cases xs with
  | nil => simp only [Links] at hl; simpa using hl.1
  | cons y ys => simp only [Links] at hl; simpa using hl.1

theorem IsList_singleton_tail {m : Mem} {h x : Nat} (hl : IsList m h [x]) :
    octo_list_tail m h = x := by
  have := hl.1
  simp only [Links] at this
  exact this.2.2.2

theorem PushSpec_add : PushSpec octo_list_add :=
  fun _ _ _ _ hl hx => Or.inl (IsList_add hl hx)

theorem PushSpec_append : PushSpec octo_list_append :=
  fun _ _ _ _ hl hx => Or.inr (IsList_append hl hx)

theorem PushSpec.singleton {push : Mem → Nat → Nat → Mem} (hp : PushSpec push) {m : Mem}
    {h x : Nat} (hl : IsList m h []) (hx : x ≠ h) : IsList (push m h x) h [x] := by
  rcases hp m h x [] hl (by simpa using hx) with h1 | h1
  · exact h1
  · simpa using h1

theorem size_t_sub_zero {n : Nat} (hn : n < 18446744073709551616) : size_t_sub n 0 = n := by
  unfold size_t_sub
  omega

theorem octo_min_self (n : Nat) : octo_min n n = n := by
  simp [octo_min]

/-! ### The effect of `octo_buffer_write` and `octo_buffer_read` -/

section
variable (push : Mem → Nat → Nat → Mem) (st : BufHeap) (p b : Nat) (data : Bytes) (len : Nat)

theorem octo_buffer_write_snd : (octo_buffer_write push st p b data len).2 = len := rfl

theorem octo_buffer_write_size :
    (octo_buffer_write push st p b data len).1.size = st.size := rfl

theorem octo_buffer_write_node :
    (octo_buffer_write push st p b data len).1.node = push st.node b p := rfl

theorem octo_buffer_write_item_self :
    (octo_buffer_write push st p b data len).1.item p =
      ⟨0, 0, len, memcpy (st.item p).data data (octo_min len (size_t_sub len 0))⟩ := by
  simp [octo_buffer_write, octo_buffer_item_alloc, octo_buffer_item_remaining]

theorem octo_buffer_write_item_other {a : Nat} (ha : a ≠ p) :
    (octo_buffer_write push st p b data len).1.item a = st.item a := by
  simp [octo_buffer_write, octo_buffer_item_alloc, ha]

theorem octo_buffer_read_fst (dst : Bytes) : (octo_buffer_read st b dst len).1 = st := rfl

theorem octo_buffer_read_snd (dst : Bytes) :
    (octo_buffer_read st b dst len).2 =
      memcpy dst (st.item (octo_list_tail st.node b)).data
        (octo_min len (size_t_sub (st.item (octo_list_tail st.node b)).capacity
          (st.item (octo_list_tail st.node b)).start)) := rfl

end

theorem memcpy_lt (dst src : Bytes) {n i : Nat} (h : i < n) : memcpy dst src n i = src i := by
  simp [memcpy, h]

theorem memcpy_ge (dst src : Bytes) {n i : Nat} (h : n ≤ i) : memcpy dst src n i = dst i := by
  have : ¬ i < n := by omega
  simp [memcpy, this]

theorem octo_buffer_init_IsList (st : BufHeap) (b : Nat) :
    IsList (octo_buffer_init st b).node b [] :=
  (IsList_nil_iff _ _).2 (by simp [octo_buffer_init, octo_list_init])

/-! ### Placement and uniqueness in reachable states -/

theorem octo_hash_nbin_eq_and {t : octo_hash} (hp : ∃ k, k < 32 ∧ t.n_hash_bins = 2 ^ k)
    (keyhash : Nat) :
    octo_hash_nbin t.n_hash_bins keyhash = keyhash &&& (t.n_hash_bins - 1) := by
  obtain ⟨k, hk, hn⟩ := hp
  rw [hn]
  unfold octo_hash_nbin
  rw [mask_of_pow2 hk]

theorem NoMatch.ne_key {s : Heap} {c : Nat → List Nat} (hn : NoMatch s c) {i a b : Nat}
    (ha : a ∈ c i) (hb : b ∈ c i) (hab : a ≠ b) :
    ¬ (s.keylen a = s.keylen b ∧ s.key a = s.key b) := by
  rintro ⟨hlen, hkey⟩
  have hsymm : Symmetric (fun x y => keymatch s (s.key x) (s.keylen x) y = false) := by
    intro x y hxy
    rw [keymatch_symm]
    exact hxy
  have h1 := List.Pairwise.forall hsymm (hn i) ha hb hab
  rw [hlen, hkey, keymatch_self] at h1
  exact absurd h1 (by decide)

/-! ### The link invariant of a represented list -/

theorem Links_next_prev {m : Mem} : ∀ (xs : List Nat) (a z : Nat), Links m a xs z →
    ∀ n, n ∈ a :: xs → (m n).next ∈ xs ++ [z] ∧ (m (m n).next).prev = n
  | [], a, z, hl, n, hn => by
    simp only [Links] at hl
    obtain rfl : n = a := by simpa using hn
    rw [hl.1]
    exact ⟨by simp, hl.2⟩
  | x :: xs, a, z, hl, n, hn => by
    simp only [Links] at hl
    rcases List.mem_cons.1 hn with rfl | hn
    · rw [hl.1]
      exact ⟨by simp, hl.2.1⟩
    · obtain ⟨h1, h2⟩ := Links_next_prev xs x z hl.2.2 n hn
      exact ⟨List.mem_cons_of_mem _ h1, h2⟩

theorem Links_prev_next {m : Mem} : ∀ (xs : List Nat) (a z : Nat), Links m a xs z →
    ∀ n, n ∈ xs ++ [z] → (m n).prev ∈ a :: xs ∧ (m (m n).prev).next = n
  | [], a, z, hl, n, hn => by
    simp only [Links] at hl
    obtain rfl : n = z := by simpa using hn
    rw [hl.2]
    exact ⟨by simp, hl.1⟩
  | x :: xs, a, z, hl, n, hn => by
    simp only [Links] at hl
    rcases List.mem_cons.1 hn with rfl | hn
    · rw [hl.2.1]
      exact ⟨by simp, hl.1⟩
    · obtain ⟨h1, h2⟩ := Links_prev_next xs x z hl.2.2 n hn
      exact ⟨List.mem_cons_of_mem _ h1, h2⟩

theorem mem_cons_iff_mem_append_singleton (h : Nat) (xs : List Nat) (n : Nat) :
    n ∈ xs ++ [h] ↔ n ∈ h :: xs := by
  simp only [List.mem_append, List.mem_singleton, List.mem_cons]
  tauto

theorem IsList.node_links {m : Mem} {h : Nat} {xs : List Nat} (hl : IsList m h xs) {n : Nat}
    (hn : n ∈ h :: xs) :
    (m n).next ∈ h :: xs ∧ (m n).prev ∈ h :: xs ∧
    (m (m n).next).prev = n ∧ (m (m n).prev).next = n := by
  obtain ⟨h1, h2⟩ := Links_next_prev xs h h hl.1 n hn
  obtain ⟨h3, h4⟩ := Links_prev_next xs h h hl.1 n
    ((mem_cons_iff_mem_append_singleton h xs n).2 hn)
  exact ⟨(mem_cons_iff_mem_append_singleton h xs _).1 h1, h3, h2, h4⟩

theorem IsList.nth_next_mem {m : Mem} {h : Nat} {xs : List Nat} (hl : IsList m h xs) :
    ∀ k, octo_list_nth_next m h k ∈ h :: xs
  | 0 => by simp [octo_list_nth_next]
  | k + 1 => (hl.node_links (IsList.nth_next_mem hl k)).1

theorem IsList.nth_prev_mem {m : Mem} {h : Nat} {xs : List Nat} (hl : IsList m h xs) :
    ∀ k, octo_list_nth_prev m h k ∈ h :: xs
  | 0 => by simp [octo_list_nth_prev]
  | k + 1 => (hl.node_links (IsList.nth_prev_mem hl k)).2.1

theorem octo_list_destroy_from_some {h : Nat} : ∀ (xs : List Nat) (m : Mem) (fuel : Nat)
    (m' : Mem), IsList m h xs →
    octo_list_destroy_from h fuel m (m h).next = some m' → IsList m' h []
  | _, _, 0, _, _, hrun => by simp [octo_list_destroy_from] at hrun
  | [], m, f + 1, m', hl, hrun => by
    have hm := (IsList_nil_iff m h).1 hl
    simp [octo_list_destroy_from, hm] at hrun
    rw [← hrun]
    exact hl
  | x :: xs, m, f + 1, m', hl, hrun => by
    have hlk := hl.1
    simp only [Links] at hlk
    have hnd := hl.2
    simp only [List.nodup_cons, List.mem_cons, not_or] at hnd
    have hhx : h ≠ x := hnd.1.1
    have hxh : x ≠ h := fun e => hhx e.symm
    have hl2 : IsList (octo_list_remove m x) h xs := @IsList_remove m h x [] xs hl
    have hnext : (octo_list_remove m x h).next = (m x).next := by
      simp [octo_list_remove_next, hhx, hlk.2.1]
    simp only [octo_list_destroy_from, hlk.1, hxh, if_false] at hrun
    rw [← hnext] at hrun
    exact octo_list_destroy_from_some xs (octo_list_remove m x) f m' hl2 hrun

theorem ListReachable.isList {h : Nat} {m : Mem} (hreach : ListReachable h m) :
    ∃ xs, IsList m h xs := by
  induction hreach with
  | init m => exact ⟨[], (IsList_nil_iff _ _).2 (by simp [octo_list_init])⟩
  | add m xs x _ hl hx _ => exact ⟨x :: xs, IsList_add hl hx⟩
  | prepend m xs x _ hl hx _ => exact ⟨x :: xs, IsList_add hl hx⟩
  | append m xs x _ hl hx _ => exact ⟨xs ++ [x], IsList_append hl hx⟩
  | remove m xs x _ hl hx _ =>
    obtain ⟨pre, post, rfl⟩ := List.append_of_mem hx
    exact ⟨pre ++ post, IsList_remove hl⟩
  | destroy m m' fuel _ hrun ih =>
    obtain ⟨xs, hl⟩ := ih
    exact ⟨[], octo_list_destroy_from_some xs m fuel m' hl hrun⟩

theorem sampleList_reach : ListReachable 10 sampleList :=
  ListReachable.append _ [1] 2
    (ListReachable.append _ [] 1 (ListReachable.init _)
      ((IsList_nil_iff _ _).2 (by simp [octo_list_init])) (by decide))
    (@IsList_append _ 10 1 [] ((IsList_nil_iff _ _).2 (by simp [octo_list_init])) (by decide))
    (by decide)

/-! ### The frame of `octo_hash_pop` -/

/-- The frame of `octo_hash_pop`, in terms of the comparison the code makes: it
returns; when it returns NULL the memory is the one it was given; when it
returns an entry `e`, then `e` was the first entry of the bucket of the key that
the comparison accepts, `e` is self-linked and no longer in any chain, that
bucket holds its former chain without `e` in the same order, all other buckets
hold their former chains, every node outside that bucket is as before, and no
key is changed. -/
theorem octo_hash_pop_frame (t : octo_hash) (s : Heap) (c : Nat → List Nat)
    (hr : TableRep t s c) (key : List Nat) (keylen fuel : Nat)
    (hf : (c (octo_hash_nbin t.n_hash_bins (octo_hash_keyhash t key keylen))).length < fuel) :
    ∃ s' r, octo_hash_pop t s key keylen fuel = some (s', r) ∧
      (r = none → s' = s) ∧
      (∀ e, r = some e → ∃ pre post,
        c (octo_hash_nbin t.n_hash_bins (octo_hash_keyhash t key keylen)) = pre ++ e :: post ∧
        (∀ b, b ∈ pre → keymatch s key keylen b = false) ∧ keymatch s key keylen e = true ∧
        s'.node e = ⟨e, e⟩ ∧
        TableRep t s' (Function.update c
          (octo_hash_nbin t.n_hash_bins (octo_hash_keyhash t key keylen)) (pre ++ post)) ∧
        Detached t (Function.update c
          (octo_hash_nbin t.n_hash_bins (octo_hash_keyhash t key keylen)) (pre ++ post)) e ∧
        (∀ a, a ∉ (t.hash_bins + octo_hash_nbin t.n_hash_bins (octo_hash_keyhash t key keylen))
          :: c (octo_hash_nbin t.n_hash_bins (octo_hash_keyhash t key keylen)) →
          s'.node a = s.node a) ∧
        s'.key = s.key ∧ s'.keylen = s.keylen) := by
  have hi := octo_hash_nbin_lt hr.pow2 (octo_hash_keyhash t key keylen)
  have hpop := octo_hash_pop_eq hr key keylen fuel hf
  generalize octo_hash_nbin t.n_hash_bins (octo_hash_keyhash t key keylen) = i at hi hpop hf ⊢
  cases hfind : (c i).find? (keymatch s key keylen) with
  | none =>
    rw [hfind] at hpop
    exact ⟨s, none, hpop, fun _ => rfl, fun e he => by simp at he⟩
  | some x =>
    rw [hfind] at hpop
    refine ⟨_, _, hpop, fun h => by simp at h, ?_⟩
    intro e he
    obtain rfl : x = e := by simpa using he
    obtain ⟨hmatch, pre, post, hc, hpre⟩ := List.find?_eq_some.1 hfind
    have hli := hr.lists i hi
    rw [hc] at hli
    have hsplit := (Links_append pre _ x post _).1 hli.1
    have hp := Links_prev_mem pre _ x hsplit.1
    have hn := Links_next_mem x post _ hsplit.2
    have hxi : x ∈ c i := by rw [hc]; simp
    have hnd : (pre ++ x :: post).Nodup := (List.nodup_cons.1 hli.2).2
    refine ⟨pre, post, hc, fun b hb => by simpa using hpre b hb, hmatch,
      octo_list_remove_self _ _, TableRep.pop hr hi hc, ⟨?_, ?_⟩, ?_, rfl, rfl⟩
    · intro j hj
      by_cases hji : j = i
      · subst hji
        simp only [Function.update_same] at hj
        have h1 := List.nodup_append.1 hnd
        rcases List.mem_append.1 hj with h | h
        · exact h1.2.2 h (List.mem_cons_self _ _) 
        · exact (List.nodup_cons.1 h1.2.1).1 h
      · simp only [Function.update_noteq hji] at hj
        exact hji (hr.disjoint j i x hj hxi)
    · intro j hj
      exact hr.notbin i x hxi j hj
    · intro a ha
      simp only [List.mem_cons, not_or] at ha
      refine octo_list_remove_other _ _ _ (fun h => ha.2 (h ▸ hxi)) ?_ ?_
      · intro h
        rw [← h] at hp
        rcases List.mem_cons.1 hp with h2 | h2
        · exact ha.1 h2
        · exact ha.2 (by rw [hc]; exact List.mem_append_left _ h2)
      · intro h
        rw [← h] at hn
        rcases List.mem_append.1 hn with h2 | h2
        · exact ha.2 (by rw [hc]; exact List.mem_append_right _ (List.mem_cons_of_mem _ h2))
        · exact ha.1 (List.mem_singleton.1 h2)

/-! ### The segments of reachable buffer states -/

theorem sample_rep0 : TableRep sampleTable sampleHeap0 (fun _ => []) :=
  octo_hash_init_rep sampleHeap 100 sampleHash 0 (by decide)

theorem sample_detached0 (e : Nat) (he : e ≠ 100) :
    Detached sampleTable (fun _ => []) e := by
  refine ⟨fun i => by simp, fun j hj => ?_⟩
  have : j < 1 := hj
  show e ≠ 100 + j
  omega

theorem sample_rep1 : TableRep sampleTable sampleHeap1 sampleChains1 :=
  TableRep.put sample_rep0 (by decide) (sample_detached0 1 (by decide))

theorem sample_mem_chains1 {i x : Nat} (h : x ∈ sampleChains1 i) : i = 0 ∧ x = 1 := by
  unfold sampleChains1 at h
  by_cases hi : i = 0
  · subst hi
    simpa using h
  · simp [Function.update_noteq hi] at h

theorem sample_detached1 (e : Nat) (he : e ≠ 100) (he1 : e ≠ 1) :
    Detached sampleTable sampleChains1 e := by
  refine ⟨fun i h => he1 (sample_mem_chains1 h).2, fun j hj => ?_⟩
  have : j < 1 := hj
  show e ≠ 100 + j
  omega

theorem sample_reach0 : Reachable sampleTable sampleHeap0 :=
  Reachable.init sampleHeap sampleHeap0 0 rfl

theorem sample_put1 : octo_hash_put sampleTable sampleHeap0 1 1 = some (sampleHeap1, true) :=
  rfl

theorem sample_reach1 : Reachable sampleTable sampleHeap1 :=
  Reachable.put sampleHeap0 sampleHeap1 _ 1 1 true sample_reach0 sample_rep0
    (sample_detached0 1 (by decide)) sample_put1

theorem sample_placed1 : Placed sampleTable sampleHeap1 sampleChains1 := by
  obtain ⟨c, hr, hp, _⟩ := sample_reach1.inv
  obtain rfl := hr.unique sample_rep1
  exact hp

theorem sample_rep2 : TableRep sampleTable sampleHeap2 sampleChains2 :=
  TableRep.put sample_rep1 (by decide) (sample_detached1 4 (by decide) (by decide))

theorem sample_put2 : octo_hash_put sampleTable sampleHeap1 4 2 = some (sampleHeap2, true) :=
  rfl

theorem sample_reach2 : Reachable sampleTable sampleHeap2 :=
  Reachable.put sampleHeap1 sampleHeap2 _ 4 2 true sample_reach1 sample_rep1
    (sample_detached1 4 (by decide) (by decide)) sample_put2

theorem sample_length_chains1 (i : Nat) : (sampleChains1 i).length < 2 := by
  unfold sampleChains1
  by_cases hi : i = 0
  · subst hi; simp
  · simp [Function.update_noteq hi]

theorem sample_length_chains2 (i : Nat) : (sampleChains2 i).length < 3 := by
  unfold sampleChains2
  by_cases hi : i = 0
  · subst hi; simp
  · rw [Function.update_noteq hi]
    have := sample_length_chains1 i
    omega

/-! ## The list claims -/

theorem Links_last {m : Mem} : ∀ (xs : List Nat) (a z : Nat), Links m a xs z →
    (m z).prev = (a :: xs).getLast (List.cons_ne_nil _ _)
  | [], a, z, hl => by
    simp only [Links] at hl
    simp [hl.2]
  | x :: xs, a, z, hl => by
    simp only [Links] at hl
    rw [Links_last xs x z hl.2.2]
    simp [List.getLast_cons]

/-- C9: after `octo_list_init(h)` both links of `h` refer to `h` and the list is
empty; a second init, and `octo_list_destroy` of that empty list, leave the
memory as it is. -/
theorem C9_list_init (m : Mem) (h : Nat) :
    (octo_list_init m h h).next = h ∧ (octo_list_init m h h).prev = h ∧
    octo_list_empty (octo_list_init m h) h = true ∧
    octo_list_init (octo_list_init m h) h = octo_list_init m h ∧
    ∀ fuel, octo_list_destroy (octo_list_init m h) h (fuel + 1) = some (octo_list_init m h) := by
  refine ⟨by simp [octo_list_init], by simp [octo_list_init], by simp [octo_list_init,
    octo_list_empty], ?_, fun fuel => ?_⟩
  · funext a
    simp only [octo_list_init, Mem.set_apply]
    split_ifs <;> rfl
  · simp [octo_list_destroy, octo_list_destroy_from, octo_list_init]

/-- C10: `octo_list_append(h, x)` of a detached node `x` to a well-formed list
with elements `s` yields the elements `s ++ [x]`: `x` is the tail, `x.next` is
the head, `x.prev` is the old tail, and `octo_list_foreach` visits `s ++ [x]` in
that order; appending `A`, `B`, `C` to an empty list is traversed as
`[A, B, C]`. -/
theorem C10_append_preserves_order (m : Mem) (h x : Nat) (s : List Nat)
    (hl : IsList m h s) (hx : x ∉ h :: s) (fuel : Nat) (hf : s.length + 1 < fuel) :
    (IsList (octo_list_append m h x) h (s ++ [x]) ∧
      (octo_list_append m h x h).prev = x ∧
      (octo_list_append m h x x).next = h ∧
      (octo_list_append m h x x).prev = (h :: s).getLast (List.cons_ne_nil _ _) ∧
      octo_list_tail (octo_list_append m h x) h = x ∧
      octo_list_foreach m h fuel = some s ∧
      octo_list_foreach (octo_list_append m h x) h fuel = some (s ++ [x])) ∧
    (∀ (m0 : Mem) (L A B C : Nat), [L, A, B, C].Nodup →
      octo_list_foreach
        (octo_list_append (octo_list_append (octo_list_append (octo_list_init m0 L) L A) L B) L C)
        L 4 = some [A, B, C]) := by
  have hxh : x ≠ h := fun e => hx (by simp [e])
  have hxp : x ≠ (m h).prev := fun e => hx (e ▸ Links_prev_mem s h h hl.1)
  have hl2 := IsList_append hl hx
  refine ⟨⟨hl2, by simp [octo_list_append_prev], by simp [octo_list_append_next, hxp], ?_,
    by simp [octo_list_tail, octo_list_append_prev], ?_, ?_⟩, ?_⟩
  · rw [← Links_last s h h hl.1]
    simp [octo_list_append_prev, hxh]
  · exact octo_list_foreach_from_Links s h fuel hl.1 (List.nodup_cons.1 hl.2).1 (by omega)
  · exact octo_list_foreach_from_Links (s ++ [x]) h fuel hl2.1 (List.nodup_cons.1 hl2.2).1
      (by simpa using hf)
  · intro m0 L A B C hnd
    simp only [List.nodup_cons, List.mem_cons, List.mem_singleton, List.not_mem_nil, not_or,
      or_false, not_false_eq_true, List.nodup_nil, and_true] at hnd
    obtain ⟨⟨hLA, hLB, hLC⟩, ⟨hAB, hAC⟩, hBC⟩ := hnd
    have h0 : IsList (octo_list_init m0 L) L [] := (IsList_nil_iff _ _).2 (by simp [octo_list_init])
    have h1 := IsList_append (x := A) h0 (by simp; exact fun e => hLA e.symm)
    have h2 := IsList_append (x := B) h1 (by
      simp only [List.nil_append, List.mem_cons, List.mem_singleton, List.not_mem_nil, not_or,
        or_false]
      exact ⟨fun e => hLB e.symm, fun e => hAB e.symm⟩)
    have h3 := IsList_append (x := C) h2 (by
      simp only [List.nil_append, List.mem_cons, List.mem_singleton, List.not_mem_nil, not_or,
        or_false, List.singleton_append]
      exact ⟨fun e => hLC e.symm, fun e => hAC e.symm, fun e => hBC e.symm⟩)
    exact octo_list_foreach_from_Links _ L 4 h3.1 (List.nodup_cons.1 h3.2).1 (by simp)

/-- Witness of C10 on the list at address 10 holding 1 and 2, for the node 3. -/
theorem C10_append_preserves_order_witness :
    octo_list_foreach (octo_list_append
      (octo_list_append (octo_list_append (octo_list_init (fun _ => ⟨0, 0⟩) 10) 10 1) 10 2) 10 3)
      10 4 = some ([1, 2] ++ [3]) :=
  (C10_append_preserves_order
    (octo_list_append (octo_list_append (octo_list_init (fun _ => ⟨0, 0⟩) 10) 10 1) 10 2)
    10 3 [1, 2]
    (@IsList_append _ 10 2 [1]
      (@IsList_append _ 10 1 [] ((IsList_nil_iff _ _).2 (by simp [octo_list_init])) (by decide))
      (by decide))
    (by decide) 4 (by decide)).1.2.2.2.2.2.2

/-! ## The hash table claims -/

/-- C8: for every `pow2size < 32`, 0 and 31 included, `octo_hash_init` returns
with `n_hash_bins = 2 ^ pow2size` as a 32-bit value, both of its closing
assertions hold, every bucket is an empty self-linked list, and the hash
function, the seed and the bucket array are the ones passed.  The shift
`1 << pow2size` is taken with the wrap-around of a 32-bit register. -/
theorem C8_init_bucket_count (s : Heap) (bins : Nat) (fn : List Nat → Nat → Nat → Nat)
    (seed pow2size : Nat) (hp : pow2size < 32) :
    ∃ t s', octo_hash_init s bins fn seed pow2size = some (t, s') ∧
      t.n_hash_bins = 2 ^ pow2size ∧ t.n_hash_bins < 4294967296 ∧
      t.n_hash_bins ≠ 0 ∧ power_of_two t.n_hash_bins = true ∧
      (∀ i, i < t.n_hash_bins →
        s'.node (t.hash_bins + i) = ⟨t.hash_bins + i, t.hash_bins + i⟩ ∧
        octo_list_empty s'.node (t.hash_bins + i) = true ∧
        IsList s'.node (t.hash_bins + i) []) ∧
      t.hash_function = fn ∧ t.hash_seed = seed ∧ t.hash_bins = bins ∧
      s'.key = s.key ∧ s'.keylen = s.keylen ∧
      ∀ a, (a < bins ∨ bins + t.n_hash_bins ≤ a) → s'.node a = s.node a := by
  have h1 : 0 < 2 ^ pow2size := Nat.pow_pos (by norm_num)
  have h2 : 2 ^ pow2size ≤ 2 ^ 31 := Nat.pow_le_pow_right (by norm_num) (by omega)
  norm_num at h2
  have hrep := octo_hash_init_rep s bins fn seed hp
  refine ⟨_, _, octo_hash_init_eq s bins fn seed hp, rfl, ?_, ?_, power_of_two_pow hp, ?_,
    rfl, rfl, rfl, rfl, rfl, ?_⟩
  · show 2 ^ pow2size < 4294967296
    omega
  · show 2 ^ pow2size ≠ 0
    omega
  · intro i hi
    have hl := hrep.lists i hi
    have hnode := (IsList_nil_iff _ _).1 hl
    exact ⟨hnode, (IsList_empty_iff hl).2 rfl, hl⟩
  · intro a ha
    show octo_hash_init_bins bins (2 ^ pow2size) s.node a = s.node a
    rw [octo_hash_init_bins_apply]
    have : ¬ (bins ≤ a ∧ a < bins + 2 ^ pow2size) := by
      have ha2 : a < bins ∨ bins + 2 ^ pow2size ≤ a := ha
      omega
    simp [this]

/-- Witness of C8 at the largest size, `pow2size = 31`. -/
theorem C8_init_bucket_count_witness :
    ∃ t s', octo_hash_init sampleHeap 100 sampleHash 7 31 = some (t, s') ∧
      t.n_hash_bins = 2 ^ 31 ∧ t.n_hash_bins < 4294967296 ∧
      t.n_hash_bins ≠ 0 ∧ power_of_two t.n_hash_bins = true ∧
      (∀ i, i < t.n_hash_bins →
        s'.node (t.hash_bins + i) = ⟨t.hash_bins + i, t.hash_bins + i⟩ ∧
        octo_list_empty s'.node (t.hash_bins + i) = true ∧
        IsList s'.node (t.hash_bins + i) []) ∧
      t.hash_function = sampleHash ∧ t.hash_seed = 7 ∧ t.hash_bins = 100 ∧
      s'.key = sampleHeap.key ∧ s'.keylen = sampleHeap.keylen ∧
      ∀ a, (a < 100 ∨ 100 + t.n_hash_bins ≤ a) → s'.node a = sampleHeap.node a :=
  C8_init_bucket_count sampleHeap 100 sampleHash 7 31 (by decide)

/-- C1: when the key of `e` has the length and the bytes of the key of an entry
`r` resident in a well-formed table, `octo_hash_put` returns false and the
memory it returns is the memory it was given: nothing is linked and every
bucket chain is as before. -/
theorem C1_put_duplicate_rejected (t : octo_hash) (s : Heap) (c : Nat → List Nat)
    (hr : TableRep t s c) (hp : Placed t s c) (e r i : Nat) (hres : r ∈ c i)
    (hlen : s.keylen e = s.keylen r) (hkey : s.key e = s.key r)
    (fuel : Nat) (hf : (c i).length < fuel) :
    octo_hash_put t s e fuel = some (s, false) := by
  have hbin : entryBin t s e = i := by
    have := hp i r hres
    unfold entryBin at this ⊢
    rw [hlen, hkey]
    exact this
  have hput := octo_hash_put_eq hr e fuel (by rw [hbin]; exact hf)
  rw [hput]
  unfold putOutcome
  have hany : (c (entryBin t s e)).any (keymatch s (s.key e) (s.keylen e)) = true := by
    rw [hbin, List.any_eq_true]
    exact ⟨r, hres, by rw [hlen, hkey]; exact keymatch_self s r⟩
  rw [if_pos hany]

/-- Witness of C1: entry 3 carries the key "ab" of the resident entry 1. -/
theorem C1_put_duplicate_rejected_witness :
    octo_hash_put sampleTable sampleHeap1 3 2 = some (sampleHeap1, false) :=
  C1_put_duplicate_rejected sampleTable sampleHeap1 sampleChains1 sample_rep1 sample_placed1
    3 1 0 (by simp [sampleChains1]) rfl rfl 2 (by simp [sampleChains1])

/-- C2, as the code behaves: in the table whose only resident entry is the one at
address 1 with the key "ab" of length 2, the lookup of "abc" with length 3
succeeds, and `octo_hash_get` returns the entry with the shorter key. -/
theorem C2_lookup_matches_shorter_key :
    TableRep sampleTable sampleHeap1 sampleChains1 ∧
    (∀ i x, x ∈ sampleChains1 i → x = 1) ∧
    sampleHeap1.key 1 = [97, 98] ∧ sampleHeap1.keylen 1 = 2 ∧
    (¬ ∃ i x, x ∈ sampleChains1 i ∧ sampleHeap1.keylen x = 3 ∧
      sampleHeap1.key x = [97, 98, 99]) ∧
    octo_hash_has sampleTable sampleHeap1 [97, 98, 99] 3 2 = some true ∧
    octo_hash_get sampleTable sampleHeap1 [97, 98, 99] 3 2 = some (some 1) := by
  refine ⟨sample_rep1, fun _ _ h => (sample_mem_chains1 h).2, rfl, rfl, ?_, by decide,
    by decide⟩
  rintro ⟨i, x, hx, hlen, _⟩
  obtain rfl := (sample_mem_chains1 hx).2
  exact absurd hlen (by decide)

/-- C3, as the code behaves: the detached entry at address 2 has the key "abc",
which differs in length from the key "ab" of the only resident entry, and yet
`octo_hash_put` returns false and links nothing. -/
theorem C3_put_rejects_longer_key :
    TableRep sampleTable sampleHeap1 sampleChains1 ∧
    (∀ i x, x ∈ sampleChains1 i → x = 1) ∧
    Detached sampleTable sampleChains1 2 ∧
    sampleHeap1.key 1 = [97, 98] ∧ sampleHeap1.keylen 1 = 2 ∧
    sampleHeap1.key 2 = [97, 98, 99] ∧ sampleHeap1.keylen 2 = 3 ∧
    (∀ i x, x ∈ sampleChains1 i → sampleHeap1.keylen x ≠ sampleHeap1.keylen 2) ∧
    octo_hash_put sampleTable sampleHeap1 2 2 = some (sampleHeap1, false) := by
  refine ⟨sample_rep1, fun _ _ h => (sample_mem_chains1 h).2,
    sample_detached1 2 (by decide) (by decide), rfl, rfl, rfl, rfl, ?_, rfl⟩
  intro i x hx
  obtain rfl := (sample_mem_chains1 hx).2
  decide

/-- C4: when `octo_hash_put` of a detached entry `e` returns true, the
`octo_hash_pop` of the key of `e` that follows returns `e` itself, and
afterwards the table holds the chains it held before the put: every node other
than `e` is as before, `e` is self-linked, and `octo_hash_size` is unchanged. -/
theorem C4_put_pop_round_trip (t : octo_hash) (s : Heap) (c : Nat → List Nat)
    (hr : TableRep t s c) (e : Nat) (hd : Detached t c e) (fuel : Nat) (s1 : Heap)
    (hput : octo_hash_put t s e fuel = some (s1, true)) (fuel2 : Nat) :
    ∃ s2, octo_hash_pop t s1 (s1.key e) (s1.keylen e) (fuel2 + 1) = some (s2, some e) ∧
      TableRep t s2 c ∧ (∀ a, a ≠ e → s2.node a = s.node a) ∧ s2.node e = ⟨e, e⟩ ∧
      s2.key = s.key ∧ s2.keylen = s.keylen ∧
      ∀ f, (∀ i, (c i).length < f) → octo_hash_size t s2 f = octo_hash_size t s f := by
  have hout := octo_hash_put_some hr hput
  have hi := hr.entryBin_lt e
  obtain ⟨hlk, hzi⟩ := hr.links hi
  have hs1 : s1 = { s with node := octo_list_add s.node (t.hash_bins + entryBin t s e) e } := by
    unfold putOutcome at hout
    by_cases hany : (c (entryBin t s e)).any (keymatch s (s.key e) (s.keylen e)) = true
    · rw [if_pos hany] at hout
      simp at hout
    · rw [if_neg hany] at hout
      exact (Prod.mk.inj hout).1
  subst hs1
  have heh : e ≠ t.hash_bins + entryBin t s e := hd.2 _ hi
  have hen : e ≠ (s.node (t.hash_bins + entryBin t s e)).next := by
    intro h
    have hmem := Links_next_mem _ _ _ hlk
    rw [← h] at hmem
    rcases List.mem_append.1 hmem with hm | hm
    · exact hd.1 _ hm
    · exact heh (List.mem_singleton.1 hm)
  have hframe : ∀ a, a ≠ e →
      octo_list_remove (octo_list_add s.node (t.hash_bins + entryBin t s e) e) e a = s.node a :=
    octo_list_remove_add heh hen (Links_head_prev hlk)
  have hrep2 : TableRep t
      { s with node :=
        octo_list_remove (octo_list_add s.node (t.hash_bins + entryBin t s e) e) e } c :=
    hr.congr (fun j hj a ha => hframe a (hd.ne_of_mem hj ha))
  refine ⟨{ s with node :=
      octo_list_remove (octo_list_add s.node (t.hash_bins + entryBin t s e) e) e }, ?_, hrep2,
    hframe, octo_list_remove_self _ _, rfl, rfl, ?_⟩
  · have hbin := octo_hash_bin_eq hr.pow2 (octo_hash_keyhash t (s.key e) (s.keylen e))
    simp only [octo_hash_pop, hbin, Option.bind_eq_bind, Option.some_bind]
    change octo_hash_pop_from _ (t.hash_bins + entryBin t s e) (s.key e) (s.keylen e)
      (fuel2 + 1) (octo_list_add s.node (t.hash_bins + entryBin t s e) e
        (t.hash_bins + entryBin t s e)).next = _
    have hnext : (octo_list_add s.node (t.hash_bins + entryBin t s e) e
        (t.hash_bins + entryBin t s e)).next = e := by
      simp [octo_list_add_next]
    rw [hnext]
    simp [octo_hash_pop_from, heh, strncmp_self]
  · intro f hf
    rw [octo_hash_size_eq hrep2 f hf, octo_hash_size_eq hr f hf]

/-- Witness of C4: entry 4 is put into the table that holds entry 1. -/
theorem C4_put_pop_round_trip_witness :
    ∃ s2, octo_hash_pop sampleTable sampleHeap2 (sampleHeap2.key 4) (sampleHeap2.keylen 4)
        (0 + 1) = some (s2, some 4) ∧
      TableRep sampleTable s2 sampleChains1 ∧ (∀ a, a ≠ 4 → s2.node a = sampleHeap1.node a) ∧
      s2.node 4 = ⟨4, 4⟩ ∧ s2.key = sampleHeap1.key ∧ s2.keylen = sampleHeap1.keylen ∧
      ∀ f, (∀ i, (sampleChains1 i).length < f) →
        octo_hash_size sampleTable s2 f = octo_hash_size sampleTable sampleHeap1 f :=
  C4_put_pop_round_trip sampleTable sampleHeap1 sampleChains1 sample_rep1 4
    (sample_detached1 4 (by decide) (by decide)) 2 sampleHeap2 sample_put2 0

/-- C6, as the code behaves: in the table whose only resident entry is the one at
address 1 with the key "ab" of length 2, `octo_hash_pop` of "abc" with length 3
does not return NULL: it returns entry 1, whose key has neither that length nor
those bytes, and unlinks it, so that the bucket, which held `[1]`, is empty
afterwards. -/
theorem C6_pop_unlinks_shorter_key :
    TableRep sampleTable sampleHeap1 sampleChains1 ∧
    (∀ i x, x ∈ sampleChains1 i → x = 1) ∧
    sampleHeap1.key 1 = [97, 98] ∧ sampleHeap1.keylen 1 = 2 ∧
    (¬ ∃ i x, x ∈ sampleChains1 i ∧ sampleHeap1.keylen x = 3 ∧
      sampleHeap1.key x = [97, 98, 99]) ∧
    octo_list_foreach sampleHeap1.node 100 2 = some [1] ∧
    (∃ s', octo_hash_pop sampleTable sampleHeap1 [97, 98, 99] 3 2 = some (s', some 1) ∧
      s'.node 1 = ⟨1, 1⟩ ∧ octo_list_foreach s'.node 100 2 = some [] ∧
      s' ≠ sampleHeap1) := by
  refine ⟨sample_rep1, fun _ _ h => (sample_mem_chains1 h).2, rfl, rfl, ?_, by decide,
    { sampleHeap1 with node := octo_list_remove sampleHeap1.node 1 }, rfl, by decide,
    by decide, fun h => ?_⟩
  · rintro ⟨i, x, hx, hlen, _⟩
    obtain rfl := (sample_mem_chains1 hx).2
    exact absurd hlen (by decide)
  · have h1 : (octo_list_remove sampleHeap1.node 1 100) = sampleHeap1.node 100 :=
      congrFun (congrArg Heap.node h) 100
    revert h1
    decide

/-- C7: `octo_hash_size` returns the sum of the chain lengths of the
`n_hash_bins` buckets, which is the number of resident entries.  It is 0 after
`octo_hash_init`, one more after a put (of a detached entry) that returns true,
unchanged after a put that returns false, one less after a pop that returns an
entry, and unchanged after a pop that returns NULL; `octo_hash_get` and
`octo_hash_has` write nothing and so return no memory. -/
theorem C7_size_counts_residents (t : octo_hash) (s : Heap) (c : Nat → List Nat)
    (hr : TableRep t s c) (fuel : Nat) (hf : ∀ i, (c i).length < fuel) :
    octo_hash_size t s fuel = some (∑ i in Finset.range t.n_hash_bins, (c i).length) ∧
    (∃ l : List Nat, l.Nodup ∧ (∀ x, x ∈ l ↔ ∃ i, x ∈ c i) ∧
      l.length = ∑ i in Finset.range t.n_hash_bins, (c i).length) ∧
    (∀ e s', Detached t c e → octo_hash_put t s e fuel = some (s', true) →
      octo_hash_size t s' (fuel + 1) =
        some (∑ i in Finset.range t.n_hash_bins, (c i).length + 1)) ∧
    (∀ e s', octo_hash_put t s e fuel = some (s', false) →
      octo_hash_size t s' fuel = some (∑ i in Finset.range t.n_hash_bins, (c i).length)) ∧
    (∀ key keylen s' e, octo_hash_pop t s key keylen fuel = some (s', some e) →
      0 < ∑ i in Finset.range t.n_hash_bins, (c i).length ∧
      octo_hash_size t s' fuel =
        some (∑ i in Finset.range t.n_hash_bins, (c i).length - 1)) ∧
    (∀ key keylen s', octo_hash_pop t s key keylen fuel = some (s', none) →
      octo_hash_size t s' fuel = some (∑ i in Finset.range t.n_hash_bins, (c i).length)) ∧
    (∀ s0 bins fn seed pow2size t0 s1,
      octo_hash_init s0 bins fn seed pow2size = some (t0, s1) →
      ∀ f, octo_hash_size t0 s1 (f + 1) = some 0) := by
  have hsize := octo_hash_size_eq hr fuel hf
  refine ⟨hsize, hr.residents, ?_, ?_, ?_, ?_, ?_⟩
  · intro e s' hd hput
    have hout := octo_hash_put_some hr hput
    have hi := hr.entryBin_lt e
    unfold putOutcome at hout
    by_cases hany : (c (entryBin t s e)).any (keymatch s (s.key e) (s.keylen e)) = true
    · rw [if_pos hany] at hout
      simp at hout
    · rw [if_neg hany] at hout
      obtain rfl := (Prod.mk.inj hout).1
      have hrep := TableRep.put hr hi hd
      have hlen : ∀ j, (Function.update c (entryBin t s e) (e :: c (entryBin t s e)) j).length
          < fuel + 1 := by
        intro j
        by_cases hj : j = entryBin t s e
        · subst hj
          simp only [Function.update_same, List.length_cons]
          have := hf (entryBin t s e)
          omega
        · rw [Function.update_noteq hj]
          have := hf j
          omega
      rw [octo_hash_size_eq hrep _ hlen]
      have := sum_update_length c hi (e :: c (entryBin t s e))
      simp only [List.length_cons] at this
      congr 1
      omega
  · intro e s' hput
    have hout := octo_hash_put_some hr hput
    unfold putOutcome at hout
    by_cases hany : (c (entryBin t s e)).any (keymatch s (s.key e) (s.keylen e)) = true
    · rw [if_pos hany] at hout
      obtain rfl := (Prod.mk.inj hout).1
      exact hsize
    · rw [if_neg hany] at hout
      simp at hout
  · intro key keylen s' e hpop
    have hout := octo_hash_pop_some hr hpop
    have hi := octo_hash_nbin_lt hr.pow2 (octo_hash_keyhash t key keylen)
    generalize octo_hash_nbin t.n_hash_bins (octo_hash_keyhash t key keylen) = i at hi hout
    cases hfind : (c i).find? (keymatch s key keylen) with
    | none =>
      rw [hfind] at hout
      simp [popOutcome] at hout
    | some x =>
      rw [hfind] at hout
      obtain rfl := (Prod.mk.inj hout).1
      obtain ⟨_, pre, post, hc, _⟩ := List.find?_eq_some.1 hfind
      have hrep := TableRep.pop hr hi hc
      have hci : (c i).length = (pre ++ post).length + 1 := by
        rw [hc]
        simp only [List.length_append, List.length_cons]
        omega
      have hlen : ∀ j, (Function.update c i (pre ++ post) j).length < fuel := by
        intro j
        by_cases hj : j = i
        · subst hj
          simp only [Function.update_same]
          have := hf j
          omega
        · rw [Function.update_noteq hj]
          exact hf j
      have hsum := sum_update_length c hi (pre ++ post)
      refine ⟨by omega, ?_⟩
      show octo_hash_size t { s with node := octo_list_remove s.node x } fuel = _
      rw [octo_hash_size_eq hrep _ hlen]
      congr 1
      omega
  · intro key keylen s' hpop
    have hout := octo_hash_pop_some hr hpop
    generalize octo_hash_nbin t.n_hash_bins (octo_hash_keyhash t key keylen) = i at hout
    cases hfind : (c i).find? (keymatch s key keylen) with
    | none =>
      rw [hfind] at hout
      obtain rfl := (Prod.mk.inj hout).1
      exact hsize
    | some x =>
      rw [hfind] at hout
      simp [popOutcome] at hout
  · intro s0 bins fn seed p t0 s1 hinit f
    by_cases hp : p < 32
    · rw [octo_hash_init_eq s0 bins fn seed hp] at hinit
      simp only [Option.some.injEq, Prod.mk.injEq] at hinit
      obtain ⟨rfl, rfl⟩ := hinit
      rw [octo_hash_size_eq (octo_hash_init_rep s0 bins fn seed hp) (f + 1) (fun i => by simp)]
      simp
    · simp [octo_hash_init, hp] at hinit

/-- Witness of C7 on the table holding the entries 4 and 1. -/
theorem C7_size_counts_residents_witness :
    octo_hash_size sampleTable sampleHeap2 3 =
      some (∑ i in Finset.range sampleTable.n_hash_bins, (sampleChains2 i).length) :=
  (C7_size_counts_residents sampleTable sampleHeap2 sampleChains2 sample_rep2 3
    sample_length_chains2).1

/-- C5: in every state reachable from `octo_hash_init` by puts and adds of
detached entries and by pops, the lookup of the key of a resident entry `e`
returns `e` itself, whatever else shares its bucket; and after a pop that
returned another entry, `e` is still returned for its key. -/
theorem C5_resident_retrievable (t : octo_hash) (s : Heap) (hreach : Reachable t s)
    (c : Nat → List Nat) (hr : TableRep t s c) (e i : Nat) (he : e ∈ c i)
    (fuel : Nat) (hf : (c i).length < fuel) :
    octo_hash_get t s (s.key e) (s.keylen e) fuel = some (some e) ∧
    (∀ key keylen fuel2 s' r, octo_hash_pop t s key keylen fuel2 = some (s', some r) →
      r ≠ e → octo_hash_get t s' (s'.key e) (s'.keylen e) fuel = some (some e)) := by
  refine ⟨octo_hash_get_own_key hreach hr he hf, ?_⟩
  intro key keylen fuel2 s' r hpop hre
  have hreach2 : Reachable t s' := Reachable.pop s s' key keylen fuel2 (some r) hreach hpop
  have hout := octo_hash_pop_some hr hpop
  have hj := octo_hash_nbin_lt hr.pow2 (octo_hash_keyhash t key keylen)
  generalize octo_hash_nbin t.n_hash_bins (octo_hash_keyhash t key keylen) = j at hj hout
  cases hfind : (c j).find? (keymatch s key keylen) with
  | none =>
    rw [hfind] at hout
    simp [popOutcome] at hout
  | some x =>
    rw [hfind] at hout
    obtain ⟨hs', hx⟩ := Prod.mk.inj hout
    obtain rfl : r = x := by simpa using hx
    obtain ⟨_, pre, post, hc, _⟩ := List.find?_eq_some.1 hfind
    have hrep := TableRep.pop hr hj hc
    subst hs'
    by_cases hij : i = j
    · subst hij
      have he2 : e ∈ Function.update c i (pre ++ post) i := by
        rw [Function.update_same]
        rw [hc] at he
        rcases List.mem_append.1 he with h | h
        · exact List.mem_append_left _ h
        · rcases List.mem_cons.1 h with h | h
          · exact absurd h.symm hre
          · exact List.mem_append_right _ h
      refine octo_hash_get_own_key hreach2 hrep he2 ?_
      rw [Function.update_same]
      rw [hc] at hf
      simp only [List.length_append, List.length_cons] at hf ⊢
      omega
    · have he2 : e ∈ Function.update c j (pre ++ post) i := by
        rw [Function.update_noteq hij]
        exact he
      refine octo_hash_get_own_key hreach2 hrep he2 ?_
      rw [Function.update_noteq hij]
      exact hf

/-- Witness of C5: entry 1 lies behind entry 4 in the one bucket and is found. -/
theorem C5_resident_retrievable_witness :
    octo_hash_get sampleTable sampleHeap2 (sampleHeap2.key 1) (sampleHeap2.keylen 1) 3 =
      some (some 1) :=
  (C5_resident_retrievable sampleTable sampleHeap2 sample_reach2 sampleChains2 sample_rep2
    1 0 (by simp [sampleChains2]) 3 (sample_length_chains2 0)).1

/-! ## The list claims, continued -/

/-- C11: `octo_list_prepend(h, x)` of a detached node `x` to a well-formed list
with elements `s` yields the elements `[x] ++ s`: `h.next` is `x`, `x.prev` is
`h`, `x.next` is the old first element (`h` when `s` is empty), the `prev` of
that element is `x`, and the tail `h.prev` is unchanged when `s` is not empty. -/
theorem C11_prepend_inserts_at_head (m : Mem) (h x : Nat) (s : List Nat)
    (hl : IsList m h s) (hx : x ∉ h :: s) :
    IsList (octo_list_prepend m h x) h ([x] ++ s) ∧
    (octo_list_prepend m h x h).next = x ∧
    (octo_list_prepend m h x x).prev = h ∧
    octo_list_head m h = s.headD h ∧
    (octo_list_prepend m h x x).next = s.headD h ∧
    (octo_list_prepend m h x (s.headD h)).prev = x ∧
    (s ≠ [] → (octo_list_prepend m h x h).prev = (m h).prev ∧
      (m h).prev = (h :: s).getLast (List.cons_ne_nil _ _)) ∧
    ∀ fuel, s.length + 1 < fuel →
      octo_list_foreach (octo_list_prepend m h x) h fuel = some ([x] ++ s) := by
  have hxh : x ≠ h := fun e => hx (by simp [e])
  have hxs : x ∉ s := fun e => hx (List.mem_cons_of_mem _ e)
  have hhead : (m h).next = s.headD h := Links_headD hl.1
  have hxn : x ≠ (m h).next := fun e => hx (e ▸ (by
    have := Links_next_mem h s h hl.1
    rcases List.mem_append.1 this with h1 | h1
    · exact List.mem_cons_of_mem _ h1
    · simp [List.mem_singleton.1 h1]))
  have hl2 : IsList (octo_list_add m h x) h (x :: s) := IsList_add hl hx
  refine ⟨hl2, by simp [octo_list_prepend, octo_list_add_next], ?_, hhead, ?_, ?_, ?_, ?_⟩
  · simp [octo_list_prepend, octo_list_add_prev, hxn]
  · simp [octo_list_prepend, octo_list_add_next, hxh, hhead]
  · rw [← hhead]
    simp [octo_list_prepend, octo_list_add_prev]
  · intro hs
    refine ⟨?_, Links_last s h h hl.1⟩
    have hhn : h ≠ (m h).next := by
      rw [hhead]
      cases s with
      | nil => exact absurd rfl hs
      | cons y ys =>
        have := (List.nodup_cons.1 hl.2).1
        simp only [List.mem_cons, not_or] at this
        simpa using this.1
    simp [octo_list_prepend, octo_list_add_prev, hhn, Ne.symm hxh]
  · intro fuel hf
    exact octo_list_foreach_from_Links (x :: s) h fuel hl2.1 (List.nodup_cons.1 hl2.2).1
      (by simpa using hf)

/-- Witness of C11 on the list at address 10 holding 1, for the node 2. -/
theorem C11_prepend_inserts_at_head_witness :
    IsList (octo_list_prepend
      (octo_list_append (octo_list_init (fun _ => ⟨0, 0⟩) 10) 10 1) 10 2) 10 ([2] ++ [1]) :=
  (C11_prepend_inserts_at_head
    (octo_list_append (octo_list_init (fun _ => ⟨0, 0⟩) 10) 10 1) 10 2 [1]
    (@IsList_append _ 10 1 [] ((IsList_nil_iff _ _).2 (by simp [octo_list_init])) (by decide))
    (by decide)).1

/-- C12: `octo_list_add(h, x)` of a detached node followed by `octo_list_remove(x)`
leaves every node other than `x` exactly as before the insertion and leaves `x`
self-linked.  More generally `octo_list_remove(x)` of an element of a list
yields the same elements without `x`, in the same order, leaves `x` self-linked
and changes no node outside the list; removing the only element leaves the head
self-linked. -/
theorem C12_remove_undoes_add (m : Mem) (h x : Nat) (s : List Nat)
    (hl : IsList m h s) (hx : x ∉ h :: s) :
    (∀ a, a ≠ x → octo_list_remove (octo_list_add m h x) x a = m a) ∧
    octo_list_remove (octo_list_add m h x) x x = ⟨x, x⟩ ∧
    IsList (octo_list_remove (octo_list_add m h x) x) h s ∧
    (∀ (m2 : Mem) (y : Nat) (pre post : List Nat), IsList m2 h (pre ++ y :: post) →
      IsList (octo_list_remove m2 y) h (pre ++ post) ∧
      octo_list_remove m2 y y = ⟨y, y⟩ ∧
      ∀ a, a ∉ h :: (pre ++ y :: post) → octo_list_remove m2 y a = m2 a) ∧
    (∀ (m2 : Mem) (y : Nat), IsList m2 h [y] →
      octo_list_remove m2 y h = ⟨h, h⟩ ∧ octo_list_empty (octo_list_remove m2 y) h = true) := by
  have hxh : x ≠ h := fun e => hx (by simp [e])
  have hmem := Links_next_mem h s h hl.1
  have hxn : x ≠ (m h).next := by
    intro e
    rw [← e] at hmem
    rcases List.mem_append.1 hmem with h1 | h1
    · exact hx (List.mem_cons_of_mem _ h1)
    · exact hxh (List.mem_singleton.1 h1)
  have hframe := octo_list_remove_add hxh hxn (Links_head_prev hl.1)
  refine ⟨hframe, octo_list_remove_self _ _, ?_, ?_, ?_⟩
  · exact IsList_congr (fun a ha => hframe a (fun e => hx (e ▸ ha))) hl
  · intro m2 y pre post hl2
    refine ⟨IsList_remove hl2, octo_list_remove_self _ _, fun a ha => ?_⟩
    have hsplit := (Links_append pre h y post h).1 hl2.1
    have hp := Links_prev_mem pre h y hsplit.1
    have hn := Links_next_mem y post h hsplit.2
    simp only [List.mem_cons, List.mem_append, not_or] at ha
    refine octo_list_remove_other m2 y a ha.2.2.1 ?_ ?_
    · intro e
      rw [← e] at hp
      rcases List.mem_cons.1 hp with h1 | h1
      · exact ha.1 h1
      · exact ha.2.1 h1
    · intro e
      rw [← e] at hn
      rcases List.mem_append.1 hn with h1 | h1
      · exact ha.2.2.2 h1
      · exact ha.1 (List.mem_singleton.1 h1)
  · intro m2 y hl2
    have hl3 : IsList (octo_list_remove m2 y) h [] := @IsList_remove m2 h y [] [] hl2
    exact ⟨(IsList_nil_iff _ _).1 hl3, (IsList_empty_iff hl3).2 rfl⟩

/-- Witness of C12 on the list at address 10 holding 1, for the node 2: the head
and the element 1 are as before the insertion. -/
theorem C12_remove_undoes_add_witness :
    octo_list_remove (octo_list_add
        (octo_list_append (octo_list_init (fun _ => ⟨0, 0⟩) 10) 10 1) 10 2) 2 10 =
      octo_list_append (octo_list_init (fun _ => ⟨0, 0⟩) 10) 10 1 10 ∧
    octo_list_remove (octo_list_add
        (octo_list_append (octo_list_init (fun _ => ⟨0, 0⟩) 10) 10 1) 10 2) 2 1 =
      octo_list_append (octo_list_init (fun _ => ⟨0, 0⟩) 10) 10 1 1 :=
  ⟨(C12_remove_undoes_add
      (octo_list_append (octo_list_init (fun _ => ⟨0, 0⟩) 10) 10 1) 10 2 [1]
      (@IsList_append _ 10 1 [] ((IsList_nil_iff _ _).2 (by simp [octo_list_init])) (by decide))
      (by decide)).1 10 (by decide),
    (C12_remove_undoes_add
      (octo_list_append (octo_list_init (fun _ => ⟨0, 0⟩) 10) 10 1) 10 2 [1]
      (@IsList_append _ 10 1 [] ((IsList_nil_iff _ _).2 (by simp [octo_list_init])) (by decide))
      (by decide)).1 1 (by decide)⟩

/-! ## The buffer claims -/

/-- C14: on a buffer that `octo_buffer_init` has just emptied,
`octo_buffer_write(b, src, n)` followed by `octo_buffer_read(b, dst, n)` leaves
the first `n` bytes of `dst` equal to those of `src`, the later bytes of `dst`
untouched, and `octo_buffer_size(b)` equal to 0. -/
theorem C14_write_read_round_trip (push : Mem → Nat → Nat → Mem) (hpush : PushSpec push)
    (st0 : BufHeap) (b p : Nat) (hp : p ≠ b) (src dst : Bytes) (n : Nat)
    (hn : n < 18446744073709551616) :
    (∀ i, i < n →
      (octo_buffer_read (octo_buffer_write push (octo_buffer_init st0 b) p b src n).1
        b dst n).2 i = src i) ∧
    (∀ i, n ≤ i →
      (octo_buffer_read (octo_buffer_write push (octo_buffer_init st0 b) p b src n).1
        b dst n).2 i = dst i) ∧
    octo_buffer_size
      (octo_buffer_read (octo_buffer_write push (octo_buffer_init st0 b) p b src n).1
        b dst n).1 b = 0 ∧
    (octo_buffer_write push (octo_buffer_init st0 b) p b src n).2 = n := by
  have hlist := hpush.singleton (octo_buffer_init_IsList st0 b) hp
  have htail : octo_list_tail
      (octo_buffer_write push (octo_buffer_init st0 b) p b src n).1.node b = p := by
    rw [octo_buffer_write_node]
    exact IsList_singleton_tail hlist
  have hread := octo_buffer_read_snd
    (octo_buffer_write push (octo_buffer_init st0 b) p b src n).1 b n dst
  rw [htail, octo_buffer_write_item_self] at hread
  dsimp only at hread
  rw [size_t_sub_zero hn, octo_min_self] at hread
  refine ⟨fun i hi => ?_, fun i hi => ?_, ?_, rfl⟩
  · rw [hread, memcpy_lt _ _ hi, memcpy_lt _ _ hi]
  · rw [hread, memcpy_ge _ _ hi]
  · simp [octo_buffer_read_fst, octo_buffer_size, octo_buffer_write_size, octo_buffer_init]

/-- Witness of C14: "abcdef" written to the buffer at address 10, the segment
being allocated at address 20. -/
theorem C14_write_read_round_trip_witness :
    (∀ i, i < 6 →
      (octo_buffer_read
        (octo_buffer_write octo_list_append (octo_buffer_init sampleBuf 10) 20 10
          sampleBytes 6).1 10 sampleDst 6).2 i = sampleBytes i) ∧
    (∀ i, 6 ≤ i →
      (octo_buffer_read
        (octo_buffer_write octo_list_append (octo_buffer_init sampleBuf 10) 20 10
          sampleBytes 6).1 10 sampleDst 6).2 i = sampleDst i) ∧
    octo_buffer_size
      (octo_buffer_read
        (octo_buffer_write octo_list_append (octo_buffer_init sampleBuf 10) 20 10
          sampleBytes 6).1 10 sampleDst 6).1 10 = 0 ∧
    (octo_buffer_write octo_list_append (octo_buffer_init sampleBuf 10) 20 10
      sampleBytes 6).2 = 6 :=
  C14_write_read_round_trip octo_list_append PushSpec_append sampleBuf 10 20 (by decide)
    sampleBytes sampleDst 6 (by decide)

/-- C15, as the code behaves: `octo_buffer_write` returns `len`, but it leaves the
cached size of every buffer as it was and the `size` field of the segment it
allocates at 0, whatever `len` is; after "abcdef" is written to an empty buffer
`octo_buffer_size` is 0 and the segment holding the six bytes has size 0. -/
theorem C15_write_leaves_sizes :
    (∀ (push : Mem → Nat → Nat → Mem) (st : BufHeap) (p b : Nat) (data : Bytes) (len : Nat),
      (octo_buffer_write push st p b data len).2 = len ∧
      octo_buffer_size (octo_buffer_write push st p b data len).1 b = octo_buffer_size st b ∧
      octo_buffer_item_size (octo_buffer_write push st p b data len).1 p = 0 ∧
      octo_buffer_item_capacity (octo_buffer_write push st p b data len).1 p = len) ∧
    (octo_buffer_write octo_list_append (octo_buffer_init sampleBuf 10) 20 10
      sampleBytes 6).2 = 6 ∧
    octo_buffer_size (octo_buffer_init sampleBuf 10) 10 = 0 ∧
    octo_buffer_size
      (octo_buffer_write octo_list_append (octo_buffer_init sampleBuf 10) 20 10
        sampleBytes 6).1 10 = 0 ∧
    octo_list_tail
      (octo_buffer_write octo_list_append (octo_buffer_init sampleBuf 10) 20 10
        sampleBytes 6).1.node 10 = 20 ∧
    octo_buffer_item_size
      (octo_buffer_write octo_list_append (octo_buffer_init sampleBuf 10) 20 10
        sampleBytes 6).1 20 = 0 := by
  refine ⟨fun push st p b data len => ⟨rfl, rfl, ?_, ?_⟩, rfl, rfl, rfl, by decide, rfl⟩
  · simp [octo_buffer_item_size, octo_buffer_write_item_self]
  · simp [octo_buffer_item_capacity, octo_buffer_write_item_self]

/-- C16, the claim refuted: on the empty buffer at address 10 a write of length 0
returns 0 and yet the segment queue, empty before, holds the newly allocated
segment 20 afterwards, whether `octo_list_push` inserts at the back or at the
front. -/
theorem C16_write_zero_links_segment :
    octo_list_foreach (octo_buffer_init sampleBuf 10).node 10 2 = some [] ∧
    (octo_buffer_write octo_list_append (octo_buffer_init sampleBuf 10) 20 10
      sampleBytes 0).2 = 0 ∧
    octo_list_foreach
      (octo_buffer_write octo_list_append (octo_buffer_init sampleBuf 10) 20 10
        sampleBytes 0).1.node 10 2 = some [20] ∧
    octo_list_foreach
      (octo_buffer_write octo_list_add (octo_buffer_init sampleBuf 10) 20 10
        sampleBytes 0).1.node 10 2 = some [20] ∧
    (octo_buffer_write octo_list_append (octo_buffer_init sampleBuf 10) 20 10
      sampleBytes 0).1.node ≠ (octo_buffer_init sampleBuf 10).node := by
  refine ⟨by decide, rfl, by decide, by decide, fun h => ?_⟩
  have := congrFun h 10
  revert this
  decide

/-- C16, amended: on a buffer with a well-formed segment queue `xs`,
`octo_buffer_write(b, data, 0)` returns 0 and leaves the cached size of `b` and
every existing segment as they were, but it allocates a segment of capacity 0
at the fresh address `p` and links it into the queue, which then holds `p` in
front of or behind `xs`. -/
theorem C16_write_zero_allocates (push : Mem → Nat → Nat → Mem) (hpush : PushSpec push)
    (st : BufHeap) (b p : Nat) (xs : List Nat) (hl : IsList st.node b xs)
    (hp : p ∉ b :: xs) (data : Bytes) :
    (octo_buffer_write push st p b data 0).2 = 0 ∧
    octo_buffer_size (octo_buffer_write push st p b data 0).1 b = octo_buffer_size st b ∧
    (∀ a, a ≠ p → (octo_buffer_write push st p b data 0).1.item a = st.item a) ∧
    octo_buffer_item_capacity (octo_buffer_write push st p b data 0).1 p = 0 ∧
    octo_buffer_item_size (octo_buffer_write push st p b data 0).1 p = 0 ∧
    (IsList (octo_buffer_write push st p b data 0).1.node b (p :: xs) ∨
      IsList (octo_buffer_write push st p b data 0).1.node b (xs ++ [p])) := by
  refine ⟨rfl, rfl, fun a ha => octo_buffer_write_item_other push st p b data 0 ha, ?_, ?_, ?_⟩
  · simp [octo_buffer_item_capacity, octo_buffer_write_item_self]
  · simp [octo_buffer_item_size, octo_buffer_write_item_self]
  · rw [octo_buffer_write_node]
    exact hpush st.node b p xs hl hp

/-- Witness of C16, amended, on the empty buffer at address 10. -/
theorem C16_write_zero_allocates_witness :
    (octo_buffer_write octo_list_append (octo_buffer_init sampleBuf 10) 20 10
      sampleBytes 0).2 = 0 ∧
    octo_buffer_size
      (octo_buffer_write octo_list_append (octo_buffer_init sampleBuf 10) 20 10
        sampleBytes 0).1 10 = octo_buffer_size (octo_buffer_init sampleBuf 10) 10 ∧
    (∀ a, a ≠ 20 →
      (octo_buffer_write octo_list_append (octo_buffer_init sampleBuf 10) 20 10
        sampleBytes 0).1.item a = (octo_buffer_init sampleBuf 10).item a) ∧
    octo_buffer_item_capacity
      (octo_buffer_write octo_list_append (octo_buffer_init sampleBuf 10) 20 10
        sampleBytes 0).1 20 = 0 ∧
    octo_buffer_item_size
      (octo_buffer_write octo_list_append (octo_buffer_init sampleBuf 10) 20 10
        sampleBytes 0).1 20 = 0 ∧
    (IsList (octo_buffer_write octo_list_append (octo_buffer_init sampleBuf 10) 20 10
        sampleBytes 0).1.node 10 (20 :: []) ∨
      IsList (octo_buffer_write octo_list_append (octo_buffer_init sampleBuf 10) 20 10
        sampleBytes 0).1.node 10 ([] ++ [20])) :=
  C16_write_zero_allocates octo_list_append PushSpec_append (octo_buffer_init sampleBuf 10)
    10 20 [] (octo_buffer_init_IsList sampleBuf 10) (by decide) sampleBytes

/-- C17, as the code behaves: after "abcdef" is written to an empty buffer, a read
of 3 bytes delivers "abc" and leaves `octo_buffer_size` at 0, not 3, and the
read of 3 bytes that follows delivers "abc" again, not "def"; so it is whether
`octo_list_push` inserts at the back or at the front. -/
theorem C17_read_does_not_consume :
    octo_buffer_size
      (octo_buffer_write octo_list_append (octo_buffer_init sampleBuf 10) 20 10
        sampleBytes 6).1 10 = 0 ∧
    (List.range 3).map
      (octo_buffer_read
        (octo_buffer_write octo_list_append (octo_buffer_init sampleBuf 10) 20 10
          sampleBytes 6).1 10 sampleDst 3).2 = [97, 98, 99] ∧
    octo_buffer_size
      (octo_buffer_read
        (octo_buffer_write octo_list_append (octo_buffer_init sampleBuf 10) 20 10
          sampleBytes 6).1 10 sampleDst 3).1 10 = 0 ∧
    (List.range 3).map
      (octo_buffer_read
        (octo_buffer_read
          (octo_buffer_write octo_list_append (octo_buffer_init sampleBuf 10) 20 10
            sampleBytes 6).1 10 sampleDst 3).1 10 sampleDst 3).2 = [97, 98, 99] ∧
    (List.range 3).map
      (octo_buffer_read
        (octo_buffer_read
          (octo_buffer_write octo_list_add (octo_buffer_init sampleBuf 10) 20 10
            sampleBytes 6).1 10 sampleDst 3).1 10 sampleDst 3).2 = [97, 98, 99] ∧
    (List.range 3).map (fun i => sampleBytes (3 + i)) = [100, 101, 102] ∧
    (∀ (st : BufHeap) (b : Nat) (dst : Bytes) (len : Nat),
      (octo_buffer_read st b dst len).1 = st) := by
  refine ⟨rfl, by decide, rfl, by decide, by decide, by decide, fun _ _ _ _ => rfl⟩

/-! ## The invariants of the hash table -/

/-- C18: in every state reachable from `octo_hash_init` by puts and adds of
detached entries and by pops, the table is represented by chains in which every
resident entry `e` lies in the bucket `fn(e.key, e.keylen, seed) & (n_hash_bins -
1)`, in no other bucket, and once in the chain of that bucket. -/
theorem C18_bucket_placement (t : octo_hash) (s : Heap) (hreach : Reachable t s) :
    ∃ c, TableRep t s c ∧ ∀ e i, e ∈ c i →
      i = octo_hash_keyhash t (s.key e) (s.keylen e) &&& (t.n_hash_bins - 1) ∧
      i = octo_hash_nbin t.n_hash_bins (octo_hash_keyhash t (s.key e) (s.keylen e)) ∧
      i < t.n_hash_bins ∧ (∀ j, e ∈ c j → j = i) ∧ (c i).count e = 1 := by
  obtain ⟨c, hr, hp, _⟩ := hreach.inv
  refine ⟨c, hr, fun e i he => ?_⟩
  have hi : entryBin t s e = i := hp i e he
  have hlt := hr.entryBin_lt e
  rw [hi] at hlt
  refine ⟨?_, hi.symm, hlt, fun j hj => hr.disjoint j i e hj he, ?_⟩
  · rw [← octo_hash_nbin_eq_and hr.pow2]
    exact hi.symm
  · exact List.count_eq_one_of_mem (List.nodup_cons.1 (hr.lists i hlt).2).2 he

/-- Witness of C18 on the table holding the entries 4 and 1. -/
theorem C18_bucket_placement_witness :
    ∃ c, TableRep sampleTable sampleHeap2 c ∧ ∀ e i, e ∈ c i →
      i = octo_hash_keyhash sampleTable (sampleHeap2.key e) (sampleHeap2.keylen e) &&&
        (sampleTable.n_hash_bins - 1) ∧
      i = octo_hash_nbin sampleTable.n_hash_bins
        (octo_hash_keyhash sampleTable (sampleHeap2.key e) (sampleHeap2.keylen e)) ∧
      i < sampleTable.n_hash_bins ∧ (∀ j, e ∈ c j → j = i) ∧ (c i).count e = 1 :=
  C18_bucket_placement sampleTable sampleHeap2 sample_reach2

/-- C19: in every state reachable from `octo_hash_init` by puts and adds of
detached entries and by pops, two distinct resident entries, in whichever
buckets, do not have keys of equal length and equal bytes. -/
theorem C19_key_uniqueness (t : octo_hash) (s : Heap) (hreach : Reachable t s)
    (c : Nat → List Nat) (hr : TableRep t s c) (a b i j : Nat) (ha : a ∈ c i)
    (hb : b ∈ c j) (hab : a ≠ b) :
    ¬ (s.keylen a = s.keylen b ∧ s.key a = s.key b) := by
  obtain ⟨c0, hr0, hp0, hn0⟩ := hreach.inv
  obtain rfl := hr0.unique hr
  intro hk
  have hi : entryBin t s a = i := hp0 i a ha
  have hj : entryBin t s b = j := hp0 j b hb
  have hij : i = j := by
    rw [← hi, ← hj]
    unfold entryBin
    rw [hk.1, hk.2]
  subst hij
  exact hn0.ne_key ha hb hab hk

/-- Witness of C19 for the entries 4 and 1 of the sample table. -/
theorem C19_key_uniqueness_witness :
    ¬ (sampleHeap2.keylen 4 = sampleHeap2.keylen 1 ∧ sampleHeap2.key 4 = sampleHeap2.key 1) :=
  C19_key_uniqueness sampleTable sampleHeap2 sample_reach2 sampleChains2 sample_rep2 4 1 0 0
    (by simp [sampleChains2]) (by simp [sampleChains2]) (by decide)

/-- C20: for a bucket count `2 ^ k` with `k < 32`, that is a power of two between
1 and `2 ^ 31`, `octo_hash_nbin` is the remainder of the hash value by the bucket
count and is below the bucket count; the assertion of `octo_hash_bin` therefore
holds on every table made by `octo_hash_init`; and with one bucket the result is
0. -/
theorem C20_mask_is_modulus (k : Nat) (hk : k < 32) (keyhash : Nat) :
    octo_hash_nbin (2 ^ k) keyhash = keyhash % 2 ^ k ∧
    octo_hash_nbin (2 ^ k) keyhash < 2 ^ k ∧
    (1 ≤ 2 ^ k ∧ 2 ^ k ≤ 2 ^ 31 ∧ power_of_two (2 ^ k) = true) ∧
    (∀ (s s' : Heap) (bins : Nat) (fn : List Nat → Nat → Nat → Nat) (seed : Nat)
      (t : octo_hash), octo_hash_init s bins fn seed k = some (t, s') →
      t.n_hash_bins = 2 ^ k ∧
      octo_hash_bin t keyhash = some (t.hash_bins + keyhash % t.n_hash_bins)) ∧
    octo_hash_nbin 1 keyhash = 0 := by
  have hpos : 0 < 2 ^ k := Nat.pow_pos (by norm_num)
  refine ⟨octo_hash_nbin_eq_mod hk keyhash, ?_, ⟨hpos, Nat.pow_le_pow_right (by norm_num)
    (by omega), power_of_two_pow hk⟩, ?_, ?_⟩
  · rw [octo_hash_nbin_eq_mod hk]
    exact Nat.mod_lt _ hpos
  · intro s s' bins fn seed t hinit
    rw [octo_hash_init_eq s bins fn seed hk] at hinit
    simp only [Option.some.injEq, Prod.mk.injEq] at hinit
    obtain ⟨rfl, _⟩ := hinit
    refine ⟨rfl, ?_⟩
    rw [octo_hash_bin_eq ⟨k, hk, rfl⟩]
    show some (bins + octo_hash_nbin (2 ^ k) keyhash) = some (bins + keyhash % 2 ^ k)
    rw [octo_hash_nbin_eq_mod hk]
  · have := octo_hash_nbin_eq_mod (k := 0) (by norm_num) keyhash
    simpa [Nat.mod_one] using this

/-- Witness of C20 at the largest bucket count and the largest hash value. -/
theorem C20_mask_is_modulus_witness :
    octo_hash_nbin (2 ^ 31) 4294967295 = 4294967295 % 2 ^ 31 :=
  (C20_mask_is_modulus 31 (by decide) 4294967295).1

/-! ## The link invariant and the room left in a segment -/

/-- C21: in every list memory reachable from `octo_list_init(h)` by
`octo_list_add`, `octo_list_prepend` and `octo_list_append` of detached nodes,
`octo_list_remove` of elements and `octo_list_destroy`, the list is well
formed, and the head, every element and every node reached from the head by
`next` links or by `prev` links satisfies `n.next.prev == n` and
`n.prev.next == n`. -/
theorem C21_link_invariant (h : Nat) (m : Mem) (hreach : ListReachable h m) :
    (∃ xs, IsList m h xs ∧
      ∀ n, n ∈ h :: xs → (m (m n).next).prev = n ∧ (m (m n).prev).next = n) ∧
    (∀ k, (m (m (octo_list_nth_next m h k)).next).prev = octo_list_nth_next m h k ∧
      (m (m (octo_list_nth_next m h k)).prev).next = octo_list_nth_next m h k) ∧
    (∀ k, (m (m (octo_list_nth_prev m h k)).next).prev = octo_list_nth_prev m h k ∧
      (m (m (octo_list_nth_prev m h k)).prev).next = octo_list_nth_prev m h k) := by
  obtain ⟨xs, hl⟩ := hreach.isList
  refine ⟨⟨xs, hl, fun n hn => (hl.node_links hn).2.2⟩, fun k => ?_, fun k => ?_⟩
  · exact (hl.node_links (hl.nth_next_mem k)).2.2
  · exact (hl.node_links (hl.nth_prev_mem k)).2.2

/-- Witness of C21 on the list at address 10 to which 1 and 2 were appended. -/
theorem C21_link_invariant_witness :
    (∃ xs, IsList sampleList 10 xs ∧
      ∀ n, n ∈ 10 :: xs →
        (sampleList (sampleList n).next).prev = n ∧ (sampleList (sampleList n).prev).next = n) ∧
    (∀ k, (sampleList (sampleList (octo_list_nth_next sampleList 10 k)).next).prev =
        octo_list_nth_next sampleList 10 k ∧
      (sampleList (sampleList (octo_list_nth_next sampleList 10 k)).prev).next =
        octo_list_nth_next sampleList 10 k) ∧
    (∀ k, (sampleList (sampleList (octo_list_nth_prev sampleList 10 k)).next).prev =
        octo_list_nth_prev sampleList 10 k ∧
      (sampleList (sampleList (octo_list_nth_prev sampleList 10 k)).prev).next =
        octo_list_nth_prev sampleList 10 k) :=
  C21_link_invariant 10 sampleList sampleList_reach

end Octonaut
